import Mathlib

/-!
TuneURL SDK: the linear-interpolation `Resampler`.

A shallow embedding of `tuneurl_sdk/cpp/Resampler.cpp` and theorems about it.

* C++ `double` is modelled by `F64`: IEEE-754 binary64 values with
  round-to-nearest, ties-to-even arithmetic, computed exactly over `ℚ`. Every
  operation is rounded on its own, and a division by zero gives an infinity or a
  NaN, as IEEE-754 prescribes.
* C++ `int` is modelled by `Int`; the places where the C++ standard leaves the
  behaviour undefined (conversion of a NaN, an infinity or an out-of-range
  `double` to an integer type, signed overflow, access outside a buffer) make
  the embedded function return `none`.
* A buffer is `Option (List Int)`: `none` is the null pointer, `some xs` a
  non-null pointer to the elements `xs`.
-/

namespace TuneUrl

/-! ## IEEE-754 binary64 -/

/-- An IEEE-754 binary64 value. A finite value is given by the rational number
it denotes. The sign of zero is not tracked: the program only divides by a zero
that comes from converting the `int` 0 (which is `+0.0`), and its other uses of
a `double` (comparison, conversion to an integer) do not tell `-0.0` from
`+0.0`. -/
inductive F64 where
  | fin (q : ℚ)
  | inf (neg : Bool)
  | nan
  deriving DecidableEq

namespace F64

/-- Binary logarithm of a natural number, rounded down, by repeated halving
(`fuel` bounds the number of halvings). -/
def log2Fuel : Nat → Nat → Nat
  | 0, _ => 0
  | fuel + 1, n => if n < 2 then 0 else log2Fuel fuel (n / 2) + 1

/-- The number `⌊log₂ n⌋` for `n ≥ 1`. -/
def natLog2 (n : Nat) : Nat := log2Fuel n n

/-- The binary exponent of a non-zero rational: `⌊log₂ |q|⌋`. -/
def ilog2 (q : ℚ) : Int :=
  let k : Int := (natLog2 q.num.natAbs : Int) - (natLog2 q.den : Int)
  if (2 : ℚ) ^ k ≤ |q| then k else k - 1

/-- The nearest integer, ties to the even one. -/
def roundEven (q : ℚ) : Int :=
  let f := ⌊q⌋
  let r := q - f
  if r < 1 / 2 then f else if 1 / 2 < r then f + 1 else if f % 2 = 0 then f else f + 1

/-- Exponent of the unit in the last place of the binary64 values around `q`:
53 significant bits, smallest normal exponent `-1022` (below it the format is
subnormal, with a fixed unit `2 ^ (-1074)`). -/
def ulpExp (q : ℚ) : Int := max (ilog2 q) (-1022) - 52

/-- Round a rational to binary64: to nearest, ties to even, overflow to an
infinity. -/
def rnd (q : ℚ) : F64 :=
  if q = 0 then fin 0 else
    let e := ulpExp q
    let r : ℚ := (roundEven (q / 2 ^ e) : ℚ) * 2 ^ e
    if (2 : ℚ) ^ (1024 : Int) ≤ |r| then inf (decide (q < 0)) else fin r

/-- Conversion `static_cast<double>(n)` of an integer. -/
def ofInt (n : Int) : F64 := rnd n

/-- Negation. -/
def neg : F64 → F64
  | fin q => fin (-q)
  | inf s => inf (!s)
  | nan => nan

/-- Addition `a + b`. -/
def add : F64 → F64 → F64
  | fin a, fin b => rnd (a + b)
  | fin _, inf s => inf s
  | inf s, fin _ => inf s
  | inf s, inf t => if s = t then inf s else nan
  | _, _ => nan

/-- Subtraction `a - b`. -/
def sub (a b : F64) : F64 := add a (neg b)

/-- Multiplication `a * b`. -/
def mul : F64 → F64 → F64
  | fin a, fin b => rnd (a * b)
  | fin a, inf s => if a = 0 then nan else inf (xor s (decide (a < 0)))
  | inf s, fin b => if b = 0 then nan else inf (xor s (decide (b < 0)))
  | inf s, inf t => inf (xor s t)
  | _, _ => nan

/-- Division `a / b`. A zero divisor is `+0.0`. -/
def div : F64 → F64 → F64
  | fin a, fin b =>
    if b = 0 then (if a = 0 then nan else inf (decide (a < 0))) else rnd (a / b)
  | fin _, inf _ => fin 0
  | inf s, fin b => inf (xor s (decide (b < 0)))
  | _, _ => nan

/-- Comparison `a < b`; false as soon as one side is a NaN. -/
def lt : F64 → F64 → Bool
  | fin a, fin b => decide (a < b)
  | fin _, inf s => !s
  | inf s, fin _ => s
  | inf s, inf t => s && !t
  | _, _ => false

/-- The function `std::min(a, b)`, which is `(b < a) ? b : a`. -/
def min (a b : F64) : F64 := if lt b a then b else a

/-- The function `std::max(a, b)`, which is `(a < b) ? b : a`. -/
def max (a b : F64) : F64 := if lt a b then b else a

/-- The function `std::ceil`. -/
def ceil : F64 → F64
  | fin q => fin (⌈q⌉ : Int)
  | x => x

/-- Truncation toward zero. -/
def trunc (q : ℚ) : Int := if 0 ≤ q then ⌊q⌋ else ⌈q⌉

/-- Conversion of a `double` to an integer type with the value range
`[lo, hi]`: truncation toward zero, undefined when the operand is not finite or
the truncated value is outside the range. -/
def toIntRange (lo hi : Int) : F64 → Option Int
  | fin q => if lo ≤ trunc q ∧ trunc q ≤ hi then some (trunc q) else none
  | _ => none

end F64

/-- The least value of a C++ `int`. -/
def INT_MIN : Int := -2147483648

/-- The greatest value of a C++ `int`. -/
def INT_MAX : Int := 2147483647

/-- Conversion `static_cast<int>(x)`. -/
def toInt (x : F64) : Option Int := F64.toIntRange INT_MIN INT_MAX x

/-- Conversion `static_cast<int16_t>(x)`. -/
def toInt16 (x : F64) : Option Int := F64.toIntRange (-32768) 32767 x

/-- The result of an `int` operation: undefined on overflow. -/
def checkedInt (n : Int) : Option Int :=
  if INT_MIN ≤ n ∧ n ≤ INT_MAX then some n else none

/-- Read `buf[i]`; undefined outside the buffer. -/
def readAt (buf : List Int) (i : Int) : Option Int :=
  if 0 ≤ i then buf[i.toNat]? else none

/-- Write `buf[i] = v`; undefined outside the buffer. -/
def writeAt (buf : List Int) (i : Int) (v : Int) : Option (List Int) :=
  if 0 ≤ i ∧ i.toNat < buf.length then some (buf.set i.toNat v) else none

/-! ## The class `Resampler` -/

/-- The data members of `Resampler` (`Resampler.h`). -/
structure Resampler where
  mInputRate : Int
  mOutputRate : Int
  mChannels : Int
  mInitialized : Bool
  mRatio : F64
  deriving DecidableEq

namespace Resampler

/-- The constructor `Resampler::Resampler()`. -/
def new : Resampler :=
  { mInputRate := 0, mOutputRate := 0, mChannels := 1, mInitialized := false,
    mRatio := F64.fin 1 }

/-- The method `Resampler::create`: the returned flag and the instance after the
call. -/
def create (self : Resampler) (inputRate outputRate channels : Int) : Bool × Resampler :=
  if inputRate ≤ 0 ∨ outputRate ≤ 0 ∨ channels ≤ 0 then
    (false, self)
  else
    (true,
      { mInputRate := inputRate, mOutputRate := outputRate, mChannels := channels,
        mRatio := F64.div (F64.ofInt outputRate) (F64.ofInt inputRate),
        mInitialized := true })

/-- The method `Resampler::getOutputSize`. -/
def getOutputSize (self : Resampler) (inputLength : Int) : Option Int :=
  if !self.mInitialized then some 0
  else toInt (F64.ceil (F64.mul (F64.ofInt inputLength) self.mRatio))

/-- The method `Resampler::destroy`. -/
def destroy (self : Resampler) : Resampler :=
  { self with mInitialized := false, mInputRate := 0, mOutputRate := 0, mRatio := F64.fin 1 }

/-- The value `step` of `resample`:
`static_cast<double>(inputLength - 1) / static_cast<double>(outputLength - 1)`. -/
def stepOf (inputLength outputLength : Int) : Option F64 := do
  let n ← checkedInt (inputLength - 1)
  let d ← checkedInt (outputLength - 1)
  pure (F64.div (F64.ofInt n) (F64.ofInt d))

/-- One iteration of the loop body of `resample`: the sample stored at
`output[i]`. -/
def sampleAt (input : List Int) (inputLength : Int) (step : F64) (i : Int) : Option Int := do
  let srcPos := F64.mul (F64.ofInt i) step
  let srcIndex ← toInt srcPos
  let frac := F64.sub srcPos (F64.ofInt srcIndex)
  if srcIndex ≥ inputLength - 1 then
    readAt input (inputLength - 1)
  else do
    let a ← readAt input srcIndex
    let b ← readAt input (srcIndex + 1)
    let sample := F64.add (F64.mul (F64.ofInt a) (F64.sub (F64.fin 1) frac))
      (F64.mul (F64.ofInt b) frac)
    let sample := F64.max (F64.fin (-32768)) (F64.min (F64.fin 32767) sample)
    toInt16 sample

/-- The loop `for (int i = ...; i < outputLength; i++)` of `resample` with
`count` iterations left to run, starting at index `i`. -/
def resampleLoop (input : List Int) (inputLength : Int) (step : F64) :
    Nat → Int → List Int → Option (List Int)
  | 0, _, output => some output
  | count + 1, i, output => do
    let s ← sampleAt input inputLength step i
    let output ← writeAt output i s
    resampleLoop input inputLength step count (i + 1) output

/-- What a call of `resample` leaves behind: the instance, the returned value
and the output buffer. -/
structure Result where
  self : Resampler
  ret : Int
  output : Option (List Int)
  deriving DecidableEq

/-- The method `Resampler::resample`. -/
def resample (self : Resampler) (input : Option (List Int)) (inputLength : Int)
    (output : Option (List Int)) (outputCapacity : Int) : Option Result :=
  match input, output with
  | some inp, some out =>
    if !self.mInitialized || inputLength ≤ 0 then
      some { self := self, ret := 0, output := output }
    else do
      let size ← self.getOutputSize inputLength
      let outputLength := if size > outputCapacity then outputCapacity else size
      let step ← stepOf inputLength outputLength
      let out ← resampleLoop inp inputLength step outputLength.toNat 0 out
      pure { self := self, ret := outputLength, output := some out }
  | _, _ => some { self := self, ret := 0, output := output }

/-- The blend of the interpolation branch of `resample`,
`input[srcIndex] * (1.0 - frac) + input[srcIndex + 1] * frac`, for the two
samples `a` and `b`, before the clamp. -/
def blend (a b : Int) (frac : F64) : F64 :=
  F64.add (F64.mul (F64.ofInt a) (F64.sub (F64.fin 1) frac)) (F64.mul (F64.ofInt b) frac)

/-- The sample that the interpolation branch of `resample` stores: the blend,
clamped to the 16-bit range and converted to `int16_t`. -/
def interpolated (a b : Int) (frac : F64) : Option Int :=
  toInt16 (F64.max (F64.fin (-32768)) (F64.min (F64.fin 32767) (blend a b frac)))

/-- A call of one of the public methods of `Resampler`, with its arguments. -/
inductive Call where
  | create (inputRate outputRate channels : Int)
  | getOutputSize (inputLength : Int)
  | resample (input : Option (List Int)) (inputLength : Int) (output : Option (List Int))
      (outputCapacity : Int)
  | destroy

/-- Whether an integer is a value of the C++ type `int`. -/
def inInt (n : Int) : Bool := decide (INT_MIN ≤ n ∧ n ≤ INT_MAX)

/-- Whether the `int` arguments of a call are values of the type `int`. -/
def Call.typed : Call → Bool
  | .create inputRate outputRate channels => inInt inputRate && inInt outputRate && inInt channels
  | .getOutputSize inputLength => inInt inputLength
  | .resample _ inputLength _ outputCapacity => inInt inputLength && inInt outputCapacity
  | .destroy => true

/-- The instance after one call; `none` when the call has no defined behaviour.
`getOutputSize` is a `const` method. -/
def step (self : Resampler) : Call → Option Resampler
  | .create inputRate outputRate channels => some (self.create inputRate outputRate channels).2
  | .getOutputSize inputLength => (self.getOutputSize inputLength).map fun _ => self
  | .resample input inputLength output outputCapacity =>
    (self.resample input inputLength output outputCapacity).map Result.self
  | .destroy => some self.destroy

/-- The instance after a sequence of calls. -/
def run (self : Resampler) : List Call → Option Resampler
  | [] => some self
  | call :: calls => (step self call).bind fun next => run next calls

end Resampler

/-! ## Facts about binary64 rounding -/

namespace F64

theorem log2Fuel_eq (fuel : Nat) : ∀ n : Nat, n ≤ fuel → log2Fuel fuel n = Nat.log 2 n := by
  induction fuel with
  | zero =>
    intro n hn
    have h0 : n = 0 := by omega
    subst h0
    simp [log2Fuel]
  | succ f ih =>
    intro n hn
    unfold log2Fuel
    by_cases h : n < 2
    · rw [if_pos h, Nat.log_of_lt h]
    · rw [if_neg h, Nat.log_of_one_lt_of_le (by norm_num) (by omega), ih (n / 2) (by omega)]

theorem natLog2_eq (n : Nat) : natLog2 n = Nat.log 2 n := log2Fuel_eq n n le_rfl

theorem pow_natLog2_le {n : Nat} (h : n ≠ 0) : 2 ^ natLog2 n ≤ n := by
  rw [natLog2_eq]
  exact Nat.pow_log_le_self 2 h

theorem lt_pow_natLog2 (n : Nat) : n < 2 ^ (natLog2 n + 1) := by
  rw [natLog2_eq]
  exact Nat.lt_pow_succ_log_self (by norm_num) n

theorem two_zpow_pos (k : Int) : (0 : ℚ) < 2 ^ k := zpow_pos (by norm_num) k

theorem abs_eq_natAbs_div_den (q : ℚ) : |q| = (q.num.natAbs : ℚ) / (q.den : ℚ) := by
  have hd : (0 : ℚ) < q.den := by exact_mod_cast q.den_pos
  conv_lhs => rw [← Rat.num_div_den q]
  rw [abs_div, abs_of_pos hd, Nat.cast_natAbs, Int.cast_abs]

/-- The exponent found by `ilog2` brackets `|q|` from below. -/
theorem zpow_ilog2_le {q : ℚ} (hq : q ≠ 0) : (2 : ℚ) ^ ilog2 q ≤ |q| := by
  unfold ilog2
  simp only
  split_ifs with h
  · exact h
  · have hd : (0 : ℚ) < q.den := by exact_mod_cast q.den_pos
    have hn : q.num.natAbs ≠ 0 := by
      simpa [Int.natAbs_eq_zero] using hq
    have h1 : ((2 : ℚ) ^ (natLog2 q.num.natAbs)) ≤ (q.num.natAbs : ℚ) := by
      exact_mod_cast pow_natLog2_le hn
    have h2 : (q.den : ℚ) ≤ (2 : ℚ) ^ (natLog2 q.den + 1) := by
      exact_mod_cast (lt_pow_natLog2 q.den).le
    rw [abs_eq_natAbs_div_den, le_div_iff₀ hd]
    have e : ((natLog2 q.num.natAbs : Int) - (natLog2 q.den : Int) - 1)
        = (natLog2 q.num.natAbs : Int) - ((natLog2 q.den + 1 : Nat) : Int) := by
      push_cast; ring
    rw [e, zpow_sub₀ (by norm_num), zpow_natCast, zpow_natCast]
    have hp : (0 : ℚ) < 2 ^ (natLog2 q.den + 1) := by positivity
    rw [div_mul_eq_mul_div, div_le_iff₀ hp]
    exact mul_le_mul h1 h2 hd.le (by positivity)

/-- The exponent found by `ilog2` brackets `|q|` from above. -/
theorem lt_zpow_ilog2 (q : ℚ) : |q| < (2 : ℚ) ^ (ilog2 q + 1) := by
  have hd : (0 : ℚ) < q.den := by exact_mod_cast q.den_pos
  have h1 : (q.num.natAbs : ℚ) < (2 : ℚ) ^ (natLog2 q.num.natAbs + 1) := by
    exact_mod_cast lt_pow_natLog2 q.num.natAbs
  have h2 : (2 : ℚ) ^ (natLog2 q.den) ≤ (q.den : ℚ) := by
    exact_mod_cast pow_natLog2_le (Nat.pos_iff_ne_zero.mp q.den_pos)
  have hk : |q| < (2 : ℚ) ^ ((natLog2 q.num.natAbs : Int) - (natLog2 q.den : Int) + 1) := by
    rw [abs_eq_natAbs_div_den, div_lt_iff₀ hd]
    have e : ((natLog2 q.num.natAbs : Int) - (natLog2 q.den : Int) + 1)
        = ((natLog2 q.num.natAbs + 1 : Nat) : Int) - (natLog2 q.den : Int) := by
      push_cast; ring
    rw [e, zpow_sub₀ (by norm_num), zpow_natCast, zpow_natCast]
    have hp : (0 : ℚ) < 2 ^ (natLog2 q.den) := by positivity
    rw [div_mul_eq_mul_div, lt_div_iff₀ hp]
    calc (q.num.natAbs : ℚ) * 2 ^ natLog2 q.den
        ≤ (q.num.natAbs : ℚ) * q.den := by
          exact mul_le_mul_of_nonneg_left h2 (by positivity)
      _ < 2 ^ (natLog2 q.num.natAbs + 1) * q.den := by
          exact mul_lt_mul_of_pos_right h1 hd
  unfold ilog2
  simp only
  split_ifs with h
  · exact hk
  · have e : ((natLog2 q.num.natAbs : Int) - (natLog2 q.den : Int) - 1 + 1)
        = (natLog2 q.num.natAbs : Int) - (natLog2 q.den : Int) := by ring
    rw [e]
    exact lt_of_not_le h

theorem roundEven_intCast (n : Int) : roundEven (n : ℚ) = n := by
  unfold roundEven
  simp

/-- Rounding to the nearest integer moves a number by at most one half. -/
theorem abs_roundEven_sub_le (s : ℚ) : |(roundEven s : ℚ) - s| ≤ 1 / 2 := by
  have h1 := Int.floor_le s
  have h2 := Int.lt_floor_add_one s
  unfold roundEven
  simp only
  rw [abs_le]
  split_ifs with a b c
  · constructor <;> linarith
  · push_cast; constructor <;> linarith
  · constructor <;> linarith
  · push_cast; constructor <;> linarith

theorem rnd_zero : rnd 0 = fin 0 := by
  unfold rnd
  rw [if_pos rfl]

/-- A number `m * 2 ^ k` with a significand of at most 53 bits and an exponent
in the binary64 range is a binary64 value: rounding leaves it unchanged. -/
theorem rnd_exact (m k : Int) (hm : |m| < 2 ^ 53) (hk1 : -1074 ≤ k) (hk2 : k ≤ 970) :
    rnd ((m : ℚ) * 2 ^ k) = fin ((m : ℚ) * 2 ^ k) := by
  by_cases h0 : m = 0
  · subst h0
    simp [rnd_zero]
  have hq : (m : ℚ) * 2 ^ k ≠ 0 :=
    mul_ne_zero (by exact_mod_cast h0) (two_zpow_pos k).ne.symm
  have habs : |(m : ℚ) * 2 ^ k| < 2 ^ (53 + k) := by
    rw [abs_mul, abs_of_pos (two_zpow_pos k), zpow_add₀ (by norm_num)]
    have : |(m : ℚ)| < 2 ^ (53 : Int) := by
      have h53 : (2 : ℚ) ^ (53 : Int) = ((2 ^ 53 : Int) : ℚ) := by norm_num
      rw [h53, ← Int.cast_abs]
      exact_mod_cast hm
    exact mul_lt_mul_of_pos_right this (two_zpow_pos k)
  have hlog : ilog2 ((m : ℚ) * 2 ^ k) < 53 + k :=
    (zpow_lt_zpow_iff_right₀ (by norm_num : (1 : ℚ) < 2)).mp
      (lt_of_le_of_lt (zpow_ilog2_le hq) habs)
  have he : ulpExp ((m : ℚ) * 2 ^ k) ≤ k := by
    unfold ulpExp
    rcases max_cases (ilog2 ((m : ℚ) * 2 ^ k)) (-1022) with ⟨h, _⟩ | ⟨h, _⟩ <;> rw [h] <;> omega
  obtain ⟨j, hj⟩ : ∃ j : Nat, k = ulpExp ((m : ℚ) * 2 ^ k) + j :=
    ⟨(k - ulpExp ((m : ℚ) * 2 ^ k)).toNat, by omega⟩
  have hdiv : (m : ℚ) * 2 ^ k / 2 ^ ulpExp ((m : ℚ) * 2 ^ k) = ((m * 2 ^ j : Int) : ℚ) := by
    have hp := (two_zpow_pos (ulpExp ((m : ℚ) * 2 ^ k))).ne.symm
    rw [div_eq_iff hp]
    conv_lhs => rw [hj]
    rw [zpow_add₀ (by norm_num), zpow_natCast]
    push_cast
    ring
  unfold rnd
  rw [if_neg hq]
  simp only
  rw [hdiv, roundEven_intCast, ← hdiv, div_mul_cancel₀ _ (two_zpow_pos _).ne.symm]
  rw [if_neg]
  rw [not_le]
  exact lt_of_lt_of_le habs (zpow_le_zpow_right₀ (by norm_num) (by omega))

/-- Every integer below `2 ^ 53` in absolute value is a binary64 value. -/
theorem rnd_intCast (n : Int) (hn : |n| < 2 ^ 53) : rnd (n : ℚ) = fin (n : ℚ) := by
  have := rnd_exact n 0 hn (by norm_num) (by norm_num)
  simpa using this

/-- In the normal range, rounding yields a finite value within relative distance
`2 ^ (-53)` of its argument. -/
theorem rnd_normal (q : ℚ) (hlo : (2 : ℚ) ^ (-1022 : Int) ≤ |q|) (hhi : |q| ≤ 2 ^ (1023 : Int)) :
    ∃ r : ℚ, rnd q = fin r ∧ |r - q| ≤ |q| * 2 ^ (-53 : Int) := by
  have hq : q ≠ 0 := by
    intro h
    rw [h, abs_zero] at hlo
    exact absurd hlo (not_le.mpr (two_zpow_pos _))
  have hlog : -1022 ≤ ilog2 q := by
    have := (zpow_lt_zpow_iff_right₀ (by norm_num : (1 : ℚ) < 2)).mp
      (lt_of_le_of_lt hlo (lt_zpow_ilog2 q))
    omega
  have he : ulpExp q = ilog2 q - 52 := by
    unfold ulpExp
    rw [max_eq_left hlog]
  have hpe := two_zpow_pos (ulpExp q)
  have herr : |(roundEven (q / 2 ^ ulpExp q) : ℚ) * 2 ^ ulpExp q - q| ≤ |q| * 2 ^ (-53 : Int) := by
    have h1 := abs_roundEven_sub_le (q / 2 ^ ulpExp q)
    have e1 : (roundEven (q / 2 ^ ulpExp q) : ℚ) * 2 ^ ulpExp q - q
        = ((roundEven (q / 2 ^ ulpExp q) : ℚ) - q / 2 ^ ulpExp q) * 2 ^ ulpExp q := by
      rw [sub_mul, div_mul_cancel₀ _ hpe.ne.symm]
    rw [e1, abs_mul, abs_of_pos hpe]
    have e2 : (2 : ℚ) ^ ulpExp q = 2 * (2 ^ ilog2 q * 2 ^ (-53 : Int)) := by
      rw [he, ← zpow_add₀ (by norm_num)]
      have : (2 : ℚ) = 2 ^ (1 : Int) := by norm_num
      nth_rewrite 2 [this]
      rw [← zpow_add₀ (by norm_num)]
      congr 1
      ring
    have h3 := zpow_ilog2_le hq
    have h4 := two_zpow_pos (-53 : Int)
    calc |(roundEven (q / 2 ^ ulpExp q) : ℚ) - q / 2 ^ ulpExp q| * 2 ^ ulpExp q
        ≤ 1 / 2 * 2 ^ ulpExp q := mul_le_mul_of_nonneg_right h1 hpe.le
      _ = 2 ^ ilog2 q * 2 ^ (-53 : Int) := by rw [e2]; ring
      _ ≤ |q| * 2 ^ (-53 : Int) := mul_le_mul_of_nonneg_right h3 h4.le
  refine ⟨(roundEven (q / 2 ^ ulpExp q) : ℚ) * 2 ^ ulpExp q, ?_, herr⟩
  unfold rnd
  rw [if_neg hq]
  simp only
  rw [if_neg]
  rw [not_le]
  have h5 : |(roundEven (q / 2 ^ ulpExp q) : ℚ) * 2 ^ ulpExp q| ≤ |q| + |q| * 2 ^ (-53 : Int) := by
    have := abs_add ((roundEven (q / 2 ^ ulpExp q) : ℚ) * 2 ^ ulpExp q - q) q
    rw [sub_add_cancel] at this
    linarith
  have h6 : (2 : ℚ) ^ (-53 : Int) < 1 := by
    have := zpow_lt_zpow_right₀ (by norm_num : (1 : ℚ) < 2) (by norm_num : (-53 : Int) < 0)
    simpa using this
  have h7 : (2 : ℚ) ^ (1024 : Int) = 2 * 2 ^ (1023 : Int) := by
    have : (2 : ℚ) = 2 ^ (1 : Int) := by norm_num
    nth_rewrite 2 [this]
    rw [← zpow_add₀ (by norm_num)]
    norm_num
  have h8 : 0 ≤ |q| := abs_nonneg q
  have h9 : (0 : ℚ) < 2 ^ (1023 : Int) := two_zpow_pos _
  rw [h7]
  nlinarith

theorem div_fin (a b : ℚ) (hb : b ≠ 0) : div (fin a) (fin b) = rnd (a / b) := by
  show (if b = 0 then (if a = 0 then nan else inf (decide (a < 0))) else rnd (a / b)) = _
  rw [if_neg hb]

theorem mul_fin (a b : ℚ) : mul (fin a) (fin b) = rnd (a * b) := rfl

theorem add_fin (a b : ℚ) : add (fin a) (fin b) = rnd (a + b) := rfl

theorem sub_fin (a b : ℚ) : sub (fin a) (fin b) = rnd (a - b) := by
  show rnd (a + -b) = _
  rw [sub_eq_add_neg]

theorem ofInt_eq (n : Int) (hn : |n| < 2 ^ 53) : ofInt n = fin (n : ℚ) := rnd_intCast n hn

/-- Every `int` converts to `double` without rounding. -/
theorem ofInt_int (n : Int) (h1 : -2147483648 ≤ n) (h2 : n ≤ 2147483647) :
    ofInt n = fin (n : ℚ) := by
  apply ofInt_eq
  rw [abs_lt]
  constructor <;> omega

theorem trunc_intCast (n : Int) : trunc (n : ℚ) = n := by
  unfold trunc
  split_ifs <;> simp

theorem trunc_nonneg {q : ℚ} (h : 0 ≤ q) : trunc q = ⌊q⌋ := by
  unfold trunc
  rw [if_pos h]

theorem toIntRange_intCast (lo hi n : Int) (h1 : lo ≤ n) (h2 : n ≤ hi) :
    toIntRange lo hi (fin (n : ℚ)) = some n := by
  unfold toIntRange
  simp only [trunc_intCast]
  rw [if_pos ⟨h1, h2⟩]

theorem ceil_fin_intCast (n : Int) : ceil (fin (n : ℚ)) = fin (n : ℚ) := by
  unfold ceil
  simp

/-- The clamp `std::max(-32768.0, std::min(32767.0, x))` always produces a finite
value of the 16-bit range, whatever `x` is (a NaN gives `32767.0`). -/
theorem clamp_range (x : F64) :
    ∃ c : ℚ, max (fin (-32768)) (min (fin 32767) x) = fin c ∧ -32768 ≤ c ∧ c ≤ 32767 := by
  cases x with
  | nan => exact ⟨32767, by decide!, by norm_num, by norm_num⟩
  | inf s =>
    cases s
    · exact ⟨32767, by decide!, by norm_num, by norm_num⟩
    · exact ⟨-32768, by decide!, by norm_num, by norm_num⟩
  | fin v =>
    by_cases h1 : v < 32767
    · by_cases h2 : (-32768 : ℚ) < v
      · exact ⟨v, by simp [max, min, lt, h1, h2], h2.le, h1.le⟩
      · exact ⟨-32768, by simp [max, min, lt, h1, h2], by norm_num, by norm_num⟩
    · exact ⟨32767, by simp [max, min, lt, h1]; norm_num, by norm_num, by norm_num⟩

/-- A value inside the 16-bit range is left alone by the clamp. -/
theorem clamp_of_mem (v : ℚ) (h1 : -32768 ≤ v) (h2 : v ≤ 32767) :
    max (fin (-32768)) (min (fin 32767) (fin v)) = fin v := by
  rcases h2.lt_or_eq with h | h
  · rcases h1.lt_or_eq with h3 | h3
    · simp [max, min, lt, h, h3]
    · subst h3
      simp [max, min, lt]
      norm_num
  · subst h
    simp [max, min, lt]
    norm_num

theorem trunc_mem_of_mem (lo hi : Int) (c : ℚ) (hlo : lo ≤ 0) (hhi : 0 ≤ hi)
    (h1 : (lo : ℚ) ≤ c) (h2 : c ≤ (hi : ℚ)) : lo ≤ trunc c ∧ trunc c ≤ hi := by
  unfold trunc
  split_ifs with h
  · constructor
    · exact le_trans hlo (Int.floor_nonneg.mpr h)
    · exact Int.floor_le_iff.mpr (lt_of_le_of_lt h2 (by linarith))
  · constructor
    · exact Int.le_ceil_iff.mpr (lt_of_lt_of_le (by linarith) h1)
    · exact le_trans (Int.ceil_le.mpr (by push_cast; linarith)) hhi

end F64

/-! ## The loop of `resample` -/

namespace Resampler

theorem toInt_fin_of_bounds (p : ℚ) (h0 : 0 ≤ p) (h1 : p ≤ 2147483647) :
    toInt (F64.fin p) = some ⌊p⌋ ∧ 0 ≤ ⌊p⌋ ∧ ⌊p⌋ ≤ 2147483647 := by
  have hf0 : 0 ≤ ⌊p⌋ := Int.floor_nonneg.mpr h0
  have hf1 : ⌊p⌋ ≤ 2147483647 := by
    have : ⌊p⌋ ≤ ⌊(2147483647 : ℚ)⌋ := Int.floor_le_floor h1
    have e : ⌊(2147483647 : ℚ)⌋ = 2147483647 := by
      have := Int.floor_intCast (α := ℚ) 2147483647
      simp
    omega
  refine ⟨?_, hf0, hf1⟩
  unfold toInt F64.toIntRange
  simp only [F64.trunc_nonneg h0]
  rw [if_pos]
  unfold INT_MIN INT_MAX
  constructor <;> omega

theorem toInt16_clamp (x : F64) :
    ∃ v : Int, toInt16 (F64.max (F64.fin (-32768)) (F64.min (F64.fin 32767) x)) = some v ∧
      -32768 ≤ v ∧ v ≤ 32767 := by
  obtain ⟨c, hc, h1, h2⟩ := F64.clamp_range x
  have h := F64.trunc_mem_of_mem (-32768) 32767 c (by norm_num) (by norm_num)
    (by push_cast; exact h1) (by push_cast; exact h2)
  refine ⟨F64.trunc c, ?_, h.1, h.2⟩
  rw [hc]
  unfold toInt16 F64.toIntRange
  simp only
  rw [if_pos h]

theorem readAt_of_lt (buf : List Int) (i : Int) (h0 : 0 ≤ i) (h1 : i < buf.length) :
    ∃ v, readAt buf i = some v ∧ buf[i.toNat]? = some v := by
  have h : i.toNat < buf.length := by omega
  refine ⟨buf[i.toNat], ?_, ?_⟩
  · unfold readAt
    rw [if_pos h0]
    exact List.getElem?_eq_getElem h
  · exact List.getElem?_eq_getElem h

/-- The loop body is defined as soon as the source position is a finite,
non-negative number below `inputLength` and the input buffer holds
`inputLength` samples. -/
theorem sampleAt_defined (input : List Int) (n : Int) (step : F64) (i : Int) (p : ℚ)
    (hn1 : 1 ≤ n) (hn2 : n ≤ 2147483647) (hlen : n ≤ input.length)
    (hp : F64.mul (F64.ofInt i) step = F64.fin p) (hp0 : 0 ≤ p) (hp1 : p < n) :
    ∃ v, sampleAt input n step i = some v := by
  have hpn : p ≤ 2147483647 := by
    have : (n : ℚ) ≤ 2147483647 := by exact_mod_cast hn2
    linarith
  obtain ⟨ht, hf0, hf1⟩ := toInt_fin_of_bounds p hp0 hpn
  have hfn : ⌊p⌋ < n := Int.floor_lt.mpr hp1
  unfold sampleAt
  simp only [hp, ht, Option.bind_eq_bind, Option.some_bind, Option.pure_def]
  by_cases hb : ⌊p⌋ ≥ n - 1
  · rw [if_pos hb]
    obtain ⟨v, hv, _⟩ := readAt_of_lt input (n - 1) (by omega) (by omega)
    exact ⟨v, hv⟩
  · rw [if_neg hb]
    obtain ⟨a, ha, _⟩ := readAt_of_lt input ⌊p⌋ hf0 (by omega)
    obtain ⟨b, hb2, _⟩ := readAt_of_lt input (⌊p⌋ + 1) (by omega) (by omega)
    rw [ha, hb2]
    simp only [Option.some_bind]
    obtain ⟨v, hv, _⟩ := toInt16_clamp
      (F64.add (F64.mul (F64.ofInt a) (F64.sub (F64.fin 1) (F64.sub (F64.fin p) (F64.ofInt ⌊p⌋))))
        (F64.mul (F64.ofInt b) (F64.sub (F64.fin p) (F64.ofInt ⌊p⌋))))
    exact ⟨v, hv⟩

/-- The loop writes, at every index it visits, the sample computed by the loop
body, and leaves the rest of the output buffer as it was. -/
theorem resampleLoop_spec (input : List Int) (n : Int) (step : F64) :
    ∀ (count i : Nat) (out : List Int),
      i + count ≤ out.length →
      (∀ j : Nat, i ≤ j → j < i + count → ∃ v, sampleAt input n step j = some v) →
      ∃ res, resampleLoop input n step count i out = some res ∧ res.length = out.length ∧
        ∀ k : Nat, res[k]? =
          if i ≤ k ∧ k < i + count then sampleAt input n step k else out[k]? := by
  intro count
  induction count with
  | zero =>
    intro i out _ _
    refine ⟨out, rfl, rfl, ?_⟩
    intro k
    rw [if_neg]
    omega
  | succ c ih =>
    intro i out hlen hdef
    obtain ⟨v, hv⟩ := hdef i le_rfl (by omega)
    have hw : writeAt out i v = some (out.set i v) := by
      unfold writeAt
      rw [if_pos (show 0 ≤ (i : Int) ∧ (i : Int).toNat < out.length from ⟨by omega, by omega⟩)]
      simp
    obtain ⟨res, hres, hl, hk⟩ := ih (i + 1) (out.set i v)
      (by rw [List.length_set]; omega)
      (fun j h1 h2 => hdef j (by omega) (by omega))
    refine ⟨res, ?_, by rw [hl, List.length_set], ?_⟩
    · unfold resampleLoop
      rw [hv]
      simp only [Option.bind_eq_bind, Option.some_bind]
      rw [hw]
      simp only [Option.some_bind]
      have e : ((i : Int) + 1) = ((i + 1 : Nat) : Int) := by push_cast; rfl
      rw [e]
      simpa using hres
    · intro k
      rw [hk k]
      by_cases h1 : i + 1 ≤ k ∧ k < i + 1 + c
      · rw [if_pos h1, if_pos (by omega)]
      · rw [if_neg h1]
        by_cases h2 : k = i
        · subst h2
          rw [if_pos (by omega), hv]
          simp [List.getElem?_set, (by omega : k < out.length)]
        · rw [if_neg (by omega)]
          simp [List.getElem?_set, Ne.symm h2]

theorem two_zpow_neg53 : (2 : ℚ) ^ (-53 : Int) = 1 / 9007199254740992 := by
  rw [zpow_neg]
  norm_num

theorem normal_of_bounds (q : ℚ) (h1 : 1 / 4294967296 ≤ q) (h2 : q ≤ 9223372036854775808) :
    (2 : ℚ) ^ (-1022 : Int) ≤ |q| ∧ |q| ≤ 2 ^ (1023 : Int) := by
  have hq : 0 < q := lt_of_lt_of_le (by norm_num) h1
  rw [abs_of_pos hq]
  constructor
  · have h : (2 : ℚ) ^ (-1022 : Int) ≤ 2 ^ (-32 : Int) :=
      zpow_le_zpow_right₀ (by norm_num) (by norm_num)
    have e : (2 : ℚ) ^ (-32 : Int) = 1 / 4294967296 := by
      rw [zpow_neg]
      norm_num
    rw [e] at h
    exact le_trans h h1
  · have h : (2 : ℚ) ^ (63 : Int) ≤ 2 ^ (1023 : Int) :=
      zpow_le_zpow_right₀ (by norm_num) (by norm_num)
    have e : (2 : ℚ) ^ (63 : Int) = 9223372036854775808 := by norm_num
    rw [e] at h
    exact le_trans h2 h

/-- Rounding a positive number of moderate size: the result is finite and
within relative distance `2 ^ (-53)`. -/
theorem rnd_moderate (q : ℚ) (h1 : 1 / 4294967296 ≤ q) (h2 : q ≤ 9223372036854775808) :
    ∃ r : ℚ, F64.rnd q = F64.fin r ∧ q * (1 - 1 / 9007199254740992) ≤ r ∧
      r ≤ q * (1 + 1 / 9007199254740992) := by
  obtain ⟨hlo, hhi⟩ := normal_of_bounds q h1 h2
  obtain ⟨r, hr, herr⟩ := F64.rnd_normal q hlo hhi
  have hq : 0 < q := lt_of_lt_of_le (by norm_num) h1
  rw [abs_of_pos hq, two_zpow_neg53, abs_le] at herr
  exact ⟨r, hr, by linarith [herr.1], by linarith [herr.2]⟩

theorem checkedInt_of_mem (k : Int) (h1 : -2147483648 ≤ k) (h2 : k ≤ 2147483647) :
    checkedInt k = some k := by
  unfold checkedInt INT_MIN INT_MAX
  rw [if_pos ⟨h1, h2⟩]

/-- For an output length of at least two the step is a finite, non-negative
number, at most one rounding error above `(inputLength - 1) / (outputLength - 1)`. -/
theorem stepOf_fin (n m : Int) (hn1 : 1 ≤ n) (hn2 : n ≤ 2147483647) (hm1 : 2 ≤ m)
    (hm2 : m ≤ 2147483647) :
    ∃ s : ℚ, stepOf n m = some (F64.fin s) ∧ (s = 0 ∨ 1 / 4294967296 ≤ s) ∧
      s * ((m : ℚ) - 1) ≤ ((n : ℚ) - 1) * (1 + 1 / 9007199254740992) := by
  have hmq1 : (1 : ℚ) ≤ (m : ℚ) - 1 := by
    have : ((2 : Int) : ℚ) ≤ (m : ℚ) := by exact_mod_cast hm1
    push_cast at this
    linarith
  have hmq : (0 : ℚ) < (m : ℚ) - 1 := by linarith
  have hmq2 : (m : ℚ) - 1 ≤ 2147483646 := by
    have : (m : ℚ) ≤ ((2147483647 : Int) : ℚ) := by exact_mod_cast hm2
    push_cast at this
    linarith
  have hnq2 : (n : ℚ) - 1 ≤ 2147483646 := by
    have : (n : ℚ) ≤ ((2147483647 : Int) : ℚ) := by exact_mod_cast hn2
    push_cast at this
    linarith
  have hstep : stepOf n m = some (F64.rnd (((n : ℚ) - 1) / ((m : ℚ) - 1))) := by
    unfold stepOf
    rw [checkedInt_of_mem (n - 1) (by omega) (by omega),
      checkedInt_of_mem (m - 1) (by omega) (by omega)]
    simp only [Option.bind_eq_bind, Option.some_bind, Option.pure_def]
    rw [F64.ofInt_int (n - 1) (by omega) (by omega), F64.ofInt_int (m - 1) (by omega) (by omega)]
    unfold F64.div
    push_cast
    rw [if_neg hmq.ne.symm]
  by_cases h1 : n = 1
  · subst h1
    refine ⟨0, ?_, Or.inl rfl, by simp⟩
    rw [hstep]
    simp [F64.rnd_zero]
  · have hnq : (1 : ℚ) ≤ (n : ℚ) - 1 := by
      have : ((2 : Int) : ℚ) ≤ (n : ℚ) := by exact_mod_cast (by omega : 2 ≤ n)
      push_cast at this
      linarith
    have hq1 : 1 / 4294967296 ≤ ((n : ℚ) - 1) / ((m : ℚ) - 1) := by
      rw [le_div_iff₀ hmq]
      linarith
    have hq2 : ((n : ℚ) - 1) / ((m : ℚ) - 1) ≤ 9223372036854775808 := by
      rw [div_le_iff₀ hmq]
      linarith
    obtain ⟨r, hr, hr1, hr2⟩ := rnd_moderate _ (le_trans (by norm_num) hq1) hq2
    refine ⟨r, by rw [hstep, hr], Or.inr ?_, ?_⟩
    · have hq3 : 1 / 2147483646 ≤ ((n : ℚ) - 1) / ((m : ℚ) - 1) := by
        rw [le_div_iff₀ hmq]
        linarith
      nlinarith
    · have e : ((n : ℚ) - 1) / ((m : ℚ) - 1) * ((m : ℚ) - 1) = (n : ℚ) - 1 :=
        div_mul_cancel₀ _ hmq.ne.symm
      calc r * ((m : ℚ) - 1)
          ≤ ((n : ℚ) - 1) / ((m : ℚ) - 1) * (1 + 1 / 9007199254740992) * ((m : ℚ) - 1) :=
            mul_le_mul_of_nonneg_right hr2 hmq.le
        _ = ((n : ℚ) - 1) * (1 + 1 / 9007199254740992) := by rw [mul_right_comm, e]

/-- With such a step, the source position of every output index is a finite,
non-negative number below `inputLength`. -/
theorem srcPos_fin (n m i : Int) (s : ℚ) (hn1 : 1 ≤ n) (hn2 : n ≤ 2147483647)
    (hm1 : 2 ≤ m) (hm2 : m ≤ 2147483647) (hi0 : 0 ≤ i) (hi1 : i < m)
    (hs0 : s = 0 ∨ 1 / 4294967296 ≤ s)
    (hs1 : s * ((m : ℚ) - 1) ≤ ((n : ℚ) - 1) * (1 + 1 / 9007199254740992)) :
    ∃ p : ℚ, F64.mul (F64.ofInt i) (F64.fin s) = F64.fin p ∧ 0 ≤ p ∧ p < n := by
  have hn0 : (0 : ℚ) < (n : ℚ) := by exact_mod_cast (by omega : 0 < n)
  have hmul : F64.mul (F64.ofInt i) (F64.fin s) = F64.rnd ((i : ℚ) * s) := by
    rw [F64.ofInt_int i (by omega) (by omega)]
    rfl
  by_cases hz : (i : ℚ) * s = 0
  · exact ⟨0, by rw [hmul, hz, F64.rnd_zero], le_rfl, hn0⟩
  · have hi : i ≠ 0 := by
      intro h
      apply hz
      rw [h]
      simp
    have hs : 1 / 4294967296 ≤ s := by
      rcases hs0 with h | h
      · exact absurd (by rw [h]; simp) hz
      · exact h
    have hiq1 : (1 : ℚ) ≤ (i : ℚ) := by exact_mod_cast (by omega : 1 ≤ i)
    have hiq2 : (i : ℚ) ≤ (m : ℚ) - 1 := by
      have : (i : ℚ) ≤ ((m - 1 : Int) : ℚ) := by exact_mod_cast (by omega : i ≤ m - 1)
      push_cast at this
      exact this
    have hnq2 : (n : ℚ) - 1 ≤ 2147483646 := by
      have : (n : ℚ) ≤ ((2147483647 : Int) : ℚ) := by exact_mod_cast hn2
      push_cast at this
      linarith
    have hspos : 0 < s := lt_of_lt_of_le (by norm_num) hs
    have hle : (i : ℚ) * s ≤ ((n : ℚ) - 1) * (1 + 1 / 9007199254740992) :=
      le_trans (by rw [mul_comm]; exact mul_le_mul_of_nonneg_left hiq2 hspos.le) hs1
    have h1 : 1 / 4294967296 ≤ (i : ℚ) * s := by nlinarith
    have h2 : (i : ℚ) * s ≤ 9223372036854775808 := by nlinarith
    obtain ⟨p, hp, hp1, hp2⟩ := rnd_moderate _ h1 h2
    refine ⟨p, by rw [hmul, hp], ?_, ?_⟩
    · nlinarith
    · have h3 : p ≤ ((n : ℚ) - 1) * (1 + 1 / 9007199254740992) * (1 + 1 / 9007199254740992) :=
        le_trans hp2 (mul_le_mul_of_nonneg_right hle (by norm_num))
      nlinarith

/-! ## The methods `create` and `resample` -/

theorem create_invalid (self : Resampler) (inputRate outputRate channels : Int)
    (h : inputRate ≤ 0 ∨ outputRate ≤ 0 ∨ channels ≤ 0) :
    self.create inputRate outputRate channels = (false, self) := by
  unfold create
  rw [if_pos h]

theorem create_valid (self : Resampler) (inputRate outputRate channels : Int)
    (h1 : 0 < inputRate) (h2 : 0 < outputRate) (h3 : 0 < channels) :
    self.create inputRate outputRate channels =
      (true, { mInputRate := inputRate, mOutputRate := outputRate, mChannels := channels,
               mRatio := F64.div (F64.ofInt outputRate) (F64.ofInt inputRate),
               mInitialized := true }) := by
  unfold create
  rw [if_neg (by omega)]

theorem resample_guard (self : Resampler) (input output : Option (List Int))
    (inputLength outputCapacity : Int)
    (h : self.mInitialized = false ∨ input = none ∨ output = none ∨ inputLength ≤ 0) :
    self.resample input inputLength output outputCapacity =
      some { self := self, ret := 0, output := output } := by
  unfold resample
  cases input with
  | none => rfl
  | some inp =>
    cases output with
    | none => rfl
    | some out =>
      have hc : (!self.mInitialized || decide (inputLength ≤ 0)) = true := by
        rcases h with h | h | h | h
        · simp [h]
        · cases h
        · cases h
        · simp [h]
      simp only [hc, if_true]

theorem clamp_eq_min (size cap : Int) : (if size > cap then cap else size) = min size cap := by
  split_ifs with h
  · exact (min_eq_right (le_of_lt h)).symm
  · exact (min_eq_left (not_lt.mp h)).symm

theorem toIntRange_mem (lo hi : Int) (x : F64) (v : Int) (h : F64.toIntRange lo hi x = some v) :
    lo ≤ v ∧ v ≤ hi := by
  cases x with
  | fin q =>
    unfold F64.toIntRange at h
    simp only at h
    split_ifs at h with hc
    cases h
    exact hc
  | inf s => cases h
  | nan => cases h

/-- A defined result of `getOutputSize` is an `int`. -/
theorem getOutputSize_mem (self : Resampler) (n size : Int)
    (h : self.getOutputSize n = some size) : -2147483648 ≤ size ∧ size ≤ 2147483647 := by
  unfold getOutputSize at h
  split_ifs at h
  · cases h
    constructor <;> norm_num
  · exact toIntRange_mem _ _ _ _ h

/-- Past its guard, `resample` is the clamp of `getOutputSize`, the step and the
loop. -/
theorem resample_of_valid (self : Resampler) (inp out : List Int) (n cap size : Int)
    (hinit : self.mInitialized = true) (hn : 0 < n) (hsize : self.getOutputSize n = some size) :
    self.resample (some inp) n (some out) cap =
      (stepOf n (min size cap)).bind fun step =>
        (resampleLoop inp n step (min size cap).toNat 0 out).bind fun res =>
          some { self := self, ret := min size cap, output := some res } := by
  unfold resample
  simp only [hinit, hsize, Bool.not_true, Bool.false_or, decide_eq_true_eq, not_le.mpr hn,
    if_false, Option.bind_eq_bind, Option.some_bind, Option.pure_def, clamp_eq_min]

/-- With a clamped output length of at least two, `resample` is defined: it
returns the clamped length, writes at every index below it the sample of the
loop body for the step of that length, and leaves the rest of the output buffer
alone. -/
theorem resample_defined (self : Resampler) (inp out : List Int) (n cap size : Int)
    (hinit : self.mInitialized = true) (hn1 : 1 ≤ n) (hn2 : n ≤ 2147483647)
    (hlen : n ≤ inp.length) (hsize : self.getOutputSize n = some size)
    (hm : 2 ≤ min size cap) (hout : min size cap ≤ out.length) :
    ∃ (s : ℚ) (res : List Int),
      stepOf n (min size cap) = some (F64.fin s) ∧
      self.resample (some inp) n (some out) cap =
        some { self := self, ret := min size cap, output := some res } ∧
      res.length = out.length ∧
      ∀ k : Nat, res[k]? =
        if (k : Int) < min size cap then sampleAt inp n (F64.fin s) k else out[k]? := by
  have hm2 : min size cap ≤ 2147483647 :=
    le_trans (min_le_left _ _) (getOutputSize_mem self n size hsize).2
  obtain ⟨s, hs, hs0, hs1⟩ := stepOf_fin n (min size cap) hn1 hn2 hm hm2
  have hdef : ∀ j : Nat, 0 ≤ j → j < 0 + (min size cap).toNat →
      ∃ v, sampleAt inp n (F64.fin s) j = some v := by
    intro j _ hj
    obtain ⟨p, hp, hp0, hp1⟩ := srcPos_fin n (min size cap) j s hn1 hn2 hm hm2 (by omega)
      (by omega) hs0 hs1
    exact sampleAt_defined inp n (F64.fin s) j p hn1 hn2 hlen hp hp0 hp1
  obtain ⟨res, hres, hl, hk⟩ := resampleLoop_spec inp n (F64.fin s) (min size cap).toNat 0 out
    (by omega) hdef
  refine ⟨s, res, hs, ?_, hl, ?_⟩
  · rw [resample_of_valid self inp out n cap size hinit (by omega) hsize, hs]
    simp only [Option.some_bind]
    have e : ((0 : Nat) : Int) = 0 := rfl
    rw [e] at hres
    rw [hres]
    simp only [Option.some_bind]
  · intro k
    rw [hk k]
    by_cases h : (k : Int) < min size cap
    · rw [if_pos h, if_pos (by omega)]
    · rw [if_neg h, if_neg (by omega)]

/-- With a clamped output length of zero or less the loop does not run:
`resample` returns the clamped length and writes nothing. -/
theorem resample_nonpos (self : Resampler) (inp out : List Int) (n cap size : Int)
    (hinit : self.mInitialized = true) (hn1 : 1 ≤ n) (hn2 : n ≤ 2147483647)
    (hsize : self.getOutputSize n = some size)
    (hm : min size cap ≤ 0) (hmin : -2147483648 < min size cap) :
    self.resample (some inp) n (some out) cap =
      some { self := self, ret := min size cap, output := some out } := by
  have hm1 : -2147483648 ≤ min size cap - 1 := by omega
  rw [resample_of_valid self inp out n cap size hinit (by omega) hsize]
  unfold stepOf
  rw [checkedInt_of_mem (n - 1) (by omega) (by omega),
    checkedInt_of_mem (min size cap - 1) hm1 (by omega)]
  simp only [Option.bind_eq_bind, Option.some_bind, Option.pure_def]
  have e : (min size cap).toNat = 0 := by omega
  rw [e]
  rfl

/-- With a clamped output length of exactly one, the first iteration of the loop
converts a NaN to `int`: the call has no defined behaviour. -/
theorem resample_one_undefined (self : Resampler) (inp out : List Int) (n cap size : Int)
    (hinit : self.mInitialized = true) (hn1 : 1 ≤ n)
    (hsize : self.getOutputSize n = some size) (hm : min size cap = 1) :
    self.resample (some inp) n (some out) cap = none := by
  rw [resample_of_valid self inp out n cap size hinit (by omega) hsize, hm]
  unfold stepOf
  cases hc : checkedInt (n - 1) with
  | none => rfl
  | some k =>
    have hk : k = n - 1 := by
      unfold checkedInt at hc
      split_ifs at hc
      cases hc
      rfl
    have hk2 : -2147483648 ≤ k ∧ k ≤ 2147483647 := by
      unfold checkedInt INT_MIN INT_MAX at hc
      split_ifs at hc with h
      cases hc
      exact h
    have h0 : checkedInt (1 - 1) = some 0 := by decide
    simp only [Option.bind_eq_bind, Option.some_bind, Option.pure_def, h0]
    rw [F64.ofInt_int k hk2.1 hk2.2]
    have h00 : F64.ofInt 0 = F64.fin 0 := F64.rnd_zero
    have hstep : F64.div (F64.fin (k : ℚ)) (F64.ofInt 0) = F64.nan ∨
        F64.div (F64.fin (k : ℚ)) (F64.ofInt 0) = F64.inf false := by
      rw [h00]
      unfold F64.div
      simp only [if_true]
      by_cases hz : (k : ℚ) = 0
      · left
        rw [if_pos hz]
      · right
        rw [if_neg hz]
        have : ¬ (k : ℚ) < 0 := by
          have : (0 : ℚ) ≤ (k : ℚ) := by exact_mod_cast (by omega : 0 ≤ k)
          linarith
        simp [this]
    have hloop : ∀ st : F64, st = F64.nan ∨ st = F64.inf false →
        resampleLoop inp n st (1 : Int).toNat 0 out = none := by
      intro st hst
      have hs : sampleAt inp n st 0 = none := by
        unfold sampleAt
        have : F64.mul (F64.ofInt 0) st = F64.nan := by
          rw [h00]
          rcases hst with h | h <;> rw [h] <;> simp [F64.mul]
        simp only [this]
        rfl
      show resampleLoop inp n st 1 0 out = none
      unfold resampleLoop
      rw [hs]
      rfl
    rw [hloop _ hstep]
    rfl

/-! ## Claims -/

/-- Claim C6: `resample` returns 0 and writes no output sample whenever the
instance is not configured, or the input buffer is absent, or the output buffer
is absent, or `inputLength ≤ 0`; the output buffer and the instance are left as
they were. A freshly constructed instance does so whatever the arguments are. -/
theorem resample_guard_returns_zero (self : Resampler) (input output : Option (List Int))
    (inputLength outputCapacity : Int)
    (h : self.mInitialized = false ∨ input = none ∨ output = none ∨ inputLength ≤ 0) :
    self.resample input inputLength output outputCapacity =
        some { self := self, ret := 0, output := output } ∧
      ∀ (input2 output2 : Option (List Int)) (inputLength2 outputCapacity2 : Int),
        Resampler.new.resample input2 inputLength2 output2 outputCapacity2 =
          some { self := Resampler.new, ret := 0, output := output2 } :=
  ⟨resample_guard self input output inputLength outputCapacity h,
    fun input2 output2 inputLength2 outputCapacity2 =>
      resample_guard Resampler.new input2 output2 inputLength2 outputCapacity2 (Or.inl rfl)⟩

theorem resample_guard_returns_zero_witness :
    (Resampler.new.mInitialized = false ∨ (some [3, 4] : Option (List Int)) = none ∨
        (some [9, 9, 9] : Option (List Int)) = none ∨ (2 : Int) ≤ 0) ∧
      Resampler.new.resample (some [3, 4]) 2 (some [9, 9, 9]) 3 =
        some { self := Resampler.new, ret := 0, output := some [9, 9, 9] } :=
  ⟨Or.inl rfl, (resample_guard_returns_zero Resampler.new (some [3, 4]) (some [9, 9, 9]) 2 3
    (Or.inl rfl)).1⟩

/-- Claim C8: a call of `create` with at least one of the three parameters `≤ 0`
returns false and leaves every field of the instance unchanged, whatever the
state of the instance was. -/
theorem create_invalid_atomic (self : Resampler) (inputRate outputRate channels : Int)
    (h : inputRate ≤ 0 ∨ outputRate ≤ 0 ∨ channels ≤ 0) :
    (self.create inputRate outputRate channels).1 = false ∧
      (self.create inputRate outputRate channels).2.mInputRate = self.mInputRate ∧
      (self.create inputRate outputRate channels).2.mOutputRate = self.mOutputRate ∧
      (self.create inputRate outputRate channels).2.mChannels = self.mChannels ∧
      (self.create inputRate outputRate channels).2.mRatio = self.mRatio ∧
      (self.create inputRate outputRate channels).2.mInitialized = self.mInitialized := by
  rw [create_invalid self inputRate outputRate channels h]
  exact ⟨rfl, rfl, rfl, rfl, rfl, rfl⟩

theorem create_invalid_atomic_witness :
    ((8000 : Int) ≤ 0 ∨ (-16000 : Int) ≤ 0 ∨ (1 : Int) ≤ 0) ∧
      ((Resampler.new.create 44100 48000 2).2.create 8000 (-16000) 1).1 = false ∧
      ((Resampler.new.create 44100 48000 2).2.create 8000 (-16000) 1).2.mInputRate = 44100 ∧
      ((Resampler.new.create 44100 48000 2).2.create 8000 (-16000) 1).2.mInitialized = true := by
  have h := create_invalid_atomic (Resampler.new.create 44100 48000 2).2 8000 (-16000) 1
    (Or.inr (Or.inl (by decide)))
  exact ⟨Or.inr (Or.inl (by decide)), h.1, h.2.1.trans rfl, h.2.2.2.2.2.trans rfl⟩

/-- Counterexample to claim C9: after a successful `create(8000, 16000, 1)`, the
call `create(0, 16000, 1)` returns false but the instance is still configured:
`initialized` is true and `getOutputSize(100)` is 200, not 0. -/
theorem create_invalid_keeps_configured :
    ((Resampler.new.create 8000 16000 1).2.create 0 16000 1).1 = false ∧
      ((Resampler.new.create 8000 16000 1).2.create 0 16000 1).2.mInitialized = true ∧
      ((Resampler.new.create 8000 16000 1).2.create 0 16000 1).2.getOutputSize 100 = some 200 := by
  decide!

/-- Claim C9, amended: a call of `create` with any of the three parameters `≤ 0`
returns false and leaves the instance in the state it was in. An unconfigured
instance stays unconfigured, so `getOutputSize` and `resample` still return 0; a
configured instance stays configured, with its former configuration. -/
theorem create_invalid_state (self : Resampler) (inputRate outputRate channels : Int)
    (h : inputRate ≤ 0 ∨ outputRate ≤ 0 ∨ channels ≤ 0) :
    (self.create inputRate outputRate channels).1 = false ∧
      (self.create inputRate outputRate channels).2 = self ∧
      (self.mInitialized = false →
        (self.create inputRate outputRate channels).2.mInitialized = false ∧
        (∀ n, (self.create inputRate outputRate channels).2.getOutputSize n = some 0) ∧
        (∀ input n output cap,
          (self.create inputRate outputRate channels).2.resample input n output cap =
            some { self := self, ret := 0, output := output })) ∧
      (self.mInitialized = true →
        (self.create inputRate outputRate channels).2.mInitialized = true) := by
  rw [create_invalid self inputRate outputRate channels h]
  refine ⟨rfl, rfl, ?_, fun hi => hi⟩
  intro hi
  refine ⟨hi, ?_, ?_⟩
  · intro n
    show self.getOutputSize n = some 0
    unfold getOutputSize
    rw [hi]
    rfl
  · intro input n output cap
    exact resample_guard self input output n cap (Or.inl hi)

theorem create_invalid_state_witness :
    ((0 : Int) ≤ 0 ∨ (16000 : Int) ≤ 0 ∨ (1 : Int) ≤ 0) ∧
      (Resampler.new.create 0 16000 1).1 = false ∧
      (Resampler.new.create 0 16000 1).2 = Resampler.new :=
  ⟨Or.inl (by decide),
    (create_invalid_state Resampler.new 0 16000 1 (Or.inl (by decide))).1,
    (create_invalid_state Resampler.new 0 16000 1 (Or.inl (by decide))).2.1⟩

/-- Claim C10: `create` returns true if and only if `inputRate > 0`,
`outputRate > 0` and `channels > 0`; on success the resulting state holds exactly
the three given parameters, the ratio `outputRate / inputRate` (the `double`
quotient, which for `int` rates is the exact quotient rounded once) and
`initialized = true`; it does not depend on the state before the call, so that
configuring twice with the same arguments equals configuring once. -/
theorem create_success (self : Resampler) (inputRate outputRate channels : Int) :
    ((self.create inputRate outputRate channels).1 = true ↔
        0 < inputRate ∧ 0 < outputRate ∧ 0 < channels) ∧
      (0 < inputRate → 0 < outputRate → 0 < channels →
        (self.create inputRate outputRate channels).2 =
          { mInputRate := inputRate, mOutputRate := outputRate, mChannels := channels,
            mRatio := F64.div (F64.ofInt outputRate) (F64.ofInt inputRate),
            mInitialized := true } ∧
        (inputRate ≤ 2147483647 → outputRate ≤ 2147483647 →
          (self.create inputRate outputRate channels).2.mRatio =
            F64.rnd ((outputRate : ℚ) / (inputRate : ℚ))) ∧
        (∀ other : Resampler,
          (other.create inputRate outputRate channels).2 =
            (self.create inputRate outputRate channels).2) ∧
        ((self.create inputRate outputRate channels).2.create inputRate outputRate channels).2 =
          (self.create inputRate outputRate channels).2) := by
  constructor
  · constructor
    · intro h
      by_contra hc
      have hinv : inputRate ≤ 0 ∨ outputRate ≤ 0 ∨ channels ≤ 0 := by omega
      rw [create_invalid self inputRate outputRate channels hinv] at h
      cases h
    · rintro ⟨h1, h2, h3⟩
      rw [create_valid self inputRate outputRate channels h1 h2 h3]
  · intro h1 h2 h3
    refine ⟨?_, ?_, ?_, ?_⟩
    · rw [create_valid self inputRate outputRate channels h1 h2 h3]
    · intro h4 h5
      rw [create_valid self inputRate outputRate channels h1 h2 h3]
      show F64.div (F64.ofInt outputRate) (F64.ofInt inputRate) = _
      rw [F64.ofInt_int outputRate (by omega) h5, F64.ofInt_int inputRate (by omega) h4]
      have : (inputRate : ℚ) ≠ 0 := by exact_mod_cast (by omega : inputRate ≠ 0)
      rw [F64.div_fin _ _ this]
    · intro other
      rw [create_valid self inputRate outputRate channels h1 h2 h3,
        create_valid other inputRate outputRate channels h1 h2 h3]
    · rw [create_valid _ inputRate outputRate channels h1 h2 h3,
        create_valid self inputRate outputRate channels h1 h2 h3]

theorem create_success_witness :
    (Resampler.new.create 44100 16000 1).1 = true ∧
      (Resampler.new.create 44100 16000 1).2 =
        { mInputRate := 44100, mOutputRate := 16000, mChannels := 1,
          mRatio := F64.div (F64.ofInt 16000) (F64.ofInt 44100), mInitialized := true } :=
  ⟨(create_success Resampler.new 44100 16000 1).1.mpr ⟨by decide, by decide, by decide⟩,
    ((create_success Resampler.new 44100 16000 1).2 (by decide) (by decide) (by decide)).1⟩

/-- Claim C1 at a failing input: after `create(8000, 8000, 1)` the call
`resample(input = {7}, inputLength = 1, output, outputCapacity = 1)` has the
expected output length 1 and the capacity 1, so the claim makes it return 1; the
code divides `0.0` by `0.0` for the step and converts the resulting NaN to `int`
in the first iteration, which leaves the call without a defined result. -/
theorem resample_size_one_undefined :
    (Resampler.new.create 8000 8000 1).2.getOutputSize 1 = some 1 ∧
      (Resampler.new.create 8000 8000 1).2.resample (some [7]) 1 (some [0]) 1 = none := by
  decide!

/-- Claim C3 at a failing input: with the identity ratio `create(44100, 44100, 2)`
and an input of length `N = 1`, the claim makes `resample` return 1 and write the
input sample; the step is `0.0 / 0.0`, a NaN, whose conversion to `int` leaves the
call without a defined result. -/
theorem resample_identity_one_undefined :
    (Resampler.new.create 44100 44100 2).1 = true ∧
      (Resampler.new.create 44100 44100 2).2.resample (some [1234]) 1 (some [0, 0, 0, 0]) 4
        = none := by
  decide!

/-- Claim C7 at a failing input: after `create(8000, 16000, 1)`, `resample` on
the three samples `{5, 6, 7}` with `outputCapacity = 1` has the clamped output
length 1. The code still evaluates the step `(3 - 1) / (1 - 1)`, a division by
zero that gives `+∞` (and `0.0 / 0.0`, a NaN, for a single input sample); the
loop then converts the NaN `0 * ∞` to `int`, so no sample `input[0]` is written
and no value is returned in a defined way. -/
theorem resample_capacity_one_divides_by_zero :
    (Resampler.new.create 8000 16000 1).2.getOutputSize 3 = some 6 ∧
      stepOf 3 1 = some (F64.inf false) ∧
      stepOf 1 1 = some F64.nan ∧
      F64.mul (F64.ofInt 0) (F64.inf false) = F64.nan ∧
      toInt F64.nan = none ∧
      (Resampler.new.create 8000 16000 1).2.resample (some [5, 6, 7]) 3 (some [0]) 1 = none := by
  decide!

/-- Counterexample to claim C4: after `create(8000, 16000, 1)` the input
`{0, 100, 200}` has the expected output length 6. With `outputCapacity = 6` the
call writes `0, 40, 80, 120, 160, 200`; with `outputCapacity = 3` it returns 3 but
writes `0, 100, 200`, which differs from the unclamped output at the indices 1
and 2. -/
theorem resample_clamped_not_prefix :
    (Resampler.new.create 8000 16000 1).2.getOutputSize 3 = some 6 ∧
      (Resampler.new.create 8000 16000 1).2.resample (some [0, 100, 200]) 3
          (some [0, 0, 0, 0, 0, 0]) 6 =
        some { self := (Resampler.new.create 8000 16000 1).2, ret := 6,
               output := some [0, 40, 80, 120, 160, 200] } ∧
      (Resampler.new.create 8000 16000 1).2.resample (some [0, 100, 200]) 3
          (some [0, 0, 0, 0, 0, 0]) 3 =
        some { self := (Resampler.new.create 8000 16000 1).2, ret := 3,
               output := some [0, 100, 200, 0, 0, 0] } := by
  decide!

/-- Claim C5 at a failing input: after `create(44100, 16000, 1)`, `resample` on
31 samples, thirty zeros followed by 1000, returns 12, and the sample at index 11
is 999, not the last input sample 1000. The step `30.0 / 11.0` is rounded down,
so the last source position `11 * step` is `29.999999999999996`, below
`inputLength - 1`: the boundary branch is not taken and the blend is truncated. -/
theorem resample_last_sample_differs :
    (Resampler.new.create 44100 16000 1).2.resample
        (some [0, 0, 0, 0, 0, 0, 0, 0, 0, 0, 0, 0, 0, 0, 0, 0, 0, 0, 0, 0, 0, 0, 0, 0, 0, 0, 0,
          0, 0, 0, 1000]) 31
        (some [0, 0, 0, 0, 0, 0, 0, 0, 0, 0, 0, 0]) 12 =
      some { self := (Resampler.new.create 44100 16000 1).2, ret := 12,
             output := some [0, 0, 0, 0, 0, 0, 0, 0, 0, 0, 0, 999] } := by
  decide!

/-- Counterexample to claim C2: after `create(44100, 48000, 1)`,
`getOutputSize(147)` is 161, while `ceil(147 * 48000 / 44100)` is 160: the ratio
`48000.0 / 44100.0` is rounded up, and so is its product with 147. -/
theorem getOutputSize_not_exact_ceil :
    (Resampler.new.create 44100 48000 1).2.getOutputSize 147 = some 161 ∧
      ⌈((147 : ℚ) * 48000 / 44100)⌉ = 160 := by
  decide!

/-! ## The size computed by `getOutputSize` -/

/-- Rounding a number of moderate size, of either sign. -/
theorem rnd_moderate_abs (q : ℚ) (h1 : 1 / 4294967296 ≤ |q|) (h2 : |q| ≤ 9223372036854775808) :
    ∃ r : ℚ, F64.rnd q = F64.fin r ∧ |r - q| ≤ |q| * (1 / 9007199254740992) := by
  obtain ⟨hlo, hhi⟩ := normal_of_bounds |q| h1 h2
  rw [abs_abs] at hlo hhi
  obtain ⟨r, hr, herr⟩ := F64.rnd_normal q hlo hhi
  rw [two_zpow_neg53] at herr
  exact ⟨r, hr, herr⟩

/-- The ratio stored by a successful `create` is the quotient of the rates,
rounded once. -/
theorem create_mRatio (self : Resampler) (inputRate outputRate channels : Int)
    (h1 : 0 < inputRate) (h1b : inputRate ≤ 2147483647) (h2 : 0 < outputRate)
    (h2b : outputRate ≤ 2147483647) (h3 : 0 < channels) :
    (self.create inputRate outputRate channels).2.mInitialized = true ∧
    (self.create inputRate outputRate channels).2.mRatio =
      F64.rnd ((outputRate : ℚ) / (inputRate : ℚ)) := by
  rw [create_valid self inputRate outputRate channels h1 h2 h3]
  refine ⟨rfl, ?_⟩
  show F64.div (F64.ofInt outputRate) (F64.ofInt inputRate) = _
  rw [F64.ofInt_int outputRate (by omega) h2b, F64.ofInt_int inputRate (by omega) h1b]
  have : (inputRate : ℚ) ≠ 0 := by exact_mod_cast (by omega : inputRate ≠ 0)
  rw [F64.div_fin _ _ this]

/-- For an initialized instance with a finite ratio, `getOutputSize` is the
ceiling of the rounded product. -/
theorem getOutputSize_fin (self : Resampler) (n : Int) (r : ℚ)
    (hinit : self.mInitialized = true) (hr : self.mRatio = F64.fin r)
    (hn1 : -2147483648 ≤ n) (hn2 : n ≤ 2147483647) :
    self.getOutputSize n = toInt (F64.ceil (F64.rnd ((n : ℚ) * r))) := by
  unfold getOutputSize
  rw [hinit, hr, F64.ofInt_int n hn1 hn2]
  rfl

theorem toInt_ceil_fin (p : ℚ) (h1 : -2147483648 ≤ ⌈p⌉) (h2 : ⌈p⌉ ≤ 2147483647) :
    toInt (F64.ceil (F64.fin p)) = some ⌈p⌉ := by
  unfold toInt INT_MIN INT_MAX
  show F64.toIntRange _ _ (F64.fin ((⌈p⌉ : Int) : ℚ)) = _
  exact F64.toIntRange_intCast _ _ _ h1 h2

/-- The size computed in `double` arithmetic is within one of the exact ceiling
`⌈n * outputRate / inputRate⌉`, and equal to it when `inputRate` divides
`outputRate`. -/
theorem getOutputSize_bound (self : Resampler) (inputRate outputRate channels n : Int)
    (h1 : 0 < inputRate) (h1b : inputRate ≤ 2147483647) (h2 : 0 < outputRate)
    (h2b : outputRate ≤ 2147483647) (h3 : 0 < channels)
    (hn1 : -2147483648 ≤ n) (hn2 : n ≤ 2147483647)
    (hx1 : -2147483648 < ⌈(n : ℚ) * (outputRate : ℚ) / (inputRate : ℚ)⌉)
    (hx2 : ⌈(n : ℚ) * (outputRate : ℚ) / (inputRate : ℚ)⌉ < 2147483647) :
    ∃ size : Int, (self.create inputRate outputRate channels).2.getOutputSize n = some size ∧
      |size - ⌈(n : ℚ) * (outputRate : ℚ) / (inputRate : ℚ)⌉| ≤ 1 ∧
      (inputRate ∣ outputRate → size = ⌈(n : ℚ) * (outputRate : ℚ) / (inputRate : ℚ)⌉) := by
  obtain ⟨hinit, hratio⟩ := create_mRatio self inputRate outputRate channels h1 h1b h2 h2b h3
  have hi0 : (0 : ℚ) < (inputRate : ℚ) := by exact_mod_cast h1
  have hi1 : (1 : ℚ) ≤ (inputRate : ℚ) := by exact_mod_cast (by omega : 1 ≤ inputRate)
  have hi2 : (inputRate : ℚ) ≤ 2147483647 := by exact_mod_cast h1b
  have ho1 : (1 : ℚ) ≤ (outputRate : ℚ) := by exact_mod_cast (by omega : 1 ≤ outputRate)
  have ho2 : (outputRate : ℚ) ≤ 2147483647 := by exact_mod_cast h2b
  set q : ℚ := (outputRate : ℚ) / (inputRate : ℚ) with hq
  set x : ℚ := (n : ℚ) * (outputRate : ℚ) / (inputRate : ℚ) with hx
  have hxq : x = (n : ℚ) * q := by rw [hx, hq, mul_div_assoc]
  have hq1 : 1 / 2147483647 ≤ q := by
    rw [hq, le_div_iff₀ hi0]
    linarith
  have hq2 : q ≤ 2147483647 := by
    rw [hq, div_le_iff₀ hi0]
    nlinarith
  obtain ⟨r, hr, hr1, hr2⟩ := rnd_moderate q (le_trans (by norm_num) hq1) (le_trans hq2 (by norm_num))
  have hq0 : 0 < q := lt_of_lt_of_le (by norm_num) hq1
  have hr0 : 0 < r := by nlinarith
  rw [hr] at hratio
  have hsize := getOutputSize_fin _ n r hinit hratio hn1 hn2
  -- the exact value lies within the `int` range
  have hxlo : -2147483648 ≤ x := by
    have := Int.ceil_lt_add_one x
    have : ((-2147483648 : Int) : ℚ) + 1 ≤ ((⌈x⌉ : Int) : ℚ) := by exact_mod_cast hx1
    push_cast at this
    linarith
  have hxhi : x ≤ 2147483647 := by
    have := Int.le_ceil x
    have : ((⌈x⌉ : Int) : ℚ) ≤ ((2147483647 : Int) : ℚ) := by exact_mod_cast hx2.le
    push_cast at this
    linarith
  have hxabs : |x| ≤ 2147483648 := abs_le.mpr ⟨by linarith, by linarith⟩
  have hnabs : |(n : ℚ)| * q ≤ 2147483648 := by
    have : |x| = |(n : ℚ)| * q := by rw [hxq, abs_mul, abs_of_pos hq0]
    rw [← this]
    exact hxabs
  by_cases hn0 : n = 0
  · subst hn0
    have hx0 : x = 0 := by rw [hx]; simp
    refine ⟨0, ?_, ?_, ?_⟩
    · rw [hsize]
      simp only [Int.cast_zero, zero_mul, F64.rnd_zero]
      have := toInt_ceil_fin 0 (by simp) (by simp)
      simpa using this
    · rw [hx0]
      simp
    · intro _
      rw [hx0]
      simp
  · have hnq : (1 : ℚ) ≤ |(n : ℚ)| := by
      have : (1 : Int) ≤ |n| := Int.one_le_abs hn0
      have : ((1 : Int) : ℚ) ≤ ((|n| : Int) : ℚ) := by exact_mod_cast this
      simpa [Int.cast_abs] using this
    have hnq2 : |(n : ℚ)| ≤ 2147483648 := by
      rw [abs_le]
      constructor
      · have : ((-2147483648 : Int) : ℚ) ≤ (n : ℚ) := by exact_mod_cast hn1
        push_cast at this
        linarith
      · have : (n : ℚ) ≤ ((2147483647 : Int) : ℚ) := by exact_mod_cast hn2
        push_cast at this
        linarith
    have hprod : |(n : ℚ) * r| = |(n : ℚ)| * r := by rw [abs_mul, abs_of_pos hr0]
    have hp1 : 1 / 4294967296 ≤ |(n : ℚ) * r| := by
      rw [hprod]
      nlinarith
    have hp2 : |(n : ℚ) * r| ≤ 9223372036854775808 := by
      rw [hprod]
      nlinarith
    obtain ⟨p, hp, hperr⟩ := rnd_moderate_abs ((n : ℚ) * r) hp1 hp2
    rw [hprod] at hperr
    have hrerr : |(n : ℚ) * r - x| ≤ |(n : ℚ)| * q * (1 / 9007199254740992) := by
      rw [hxq, ← mul_sub, abs_mul]
      have : |r - q| ≤ q * (1 / 9007199254740992) := abs_le.mpr ⟨by linarith, by linarith⟩
      calc |(n : ℚ)| * |r - q| ≤ |(n : ℚ)| * (q * (1 / 9007199254740992)) :=
            mul_le_mul_of_nonneg_left this (abs_nonneg _)
        _ = |(n : ℚ)| * q * (1 / 9007199254740992) := by ring
    have hnr : |(n : ℚ)| * r ≤ 2147483648 * (1 + 1 / 9007199254740992) := by
      calc |(n : ℚ)| * r ≤ |(n : ℚ)| * (q * (1 + 1 / 9007199254740992)) :=
            mul_le_mul_of_nonneg_left hr2 (abs_nonneg _)
        _ = |(n : ℚ)| * q * (1 + 1 / 9007199254740992) := by ring
        _ ≤ 2147483648 * (1 + 1 / 9007199254740992) :=
            mul_le_mul_of_nonneg_right hnabs (by norm_num)
    have hpx : |p - x| ≤ 1 / 2 := by
      have h := abs_sub_le p ((n : ℚ) * r) x
      have e1 : |(n : ℚ)| * q * (1 / 9007199254740992) ≤ 2147483648 * (1 / 9007199254740992) :=
        mul_le_mul_of_nonneg_right hnabs (by norm_num)
      have e2 : |(n : ℚ)| * r * (1 / 9007199254740992)
          ≤ 2147483648 * (1 + 1 / 9007199254740992) * (1 / 9007199254740992) :=
        mul_le_mul_of_nonneg_right hnr (by norm_num)
      have e3 : (2147483648 : ℚ) * (1 / 9007199254740992)
          + 2147483648 * (1 + 1 / 9007199254740992) * (1 / 9007199254740992) ≤ 1 / 2 := by
        norm_num
      linarith
    obtain ⟨hpx1, hpx2⟩ := abs_le.mp hpx
    have hc1 : ⌈p⌉ ≤ ⌈x⌉ + 1 := by
      rw [← Int.ceil_add_one]
      exact Int.ceil_le_ceil (by linarith)
    have hc2 : ⌈x⌉ - 1 ≤ ⌈p⌉ := by
      rw [← Int.ceil_sub_one]
      exact Int.ceil_le_ceil (by linarith)
    refine ⟨⌈p⌉, ?_, ?_, ?_⟩
    · rw [hsize, hp]
      exact toInt_ceil_fin p (by omega) (by omega)
    · rw [abs_le]
      constructor <;> omega
    · rintro ⟨k, hk⟩
      have hkq : q = (k : ℚ) := by
        rw [hq, hk]
        push_cast
        field_simp
      have hk0 : (0 : ℚ) < (k : ℚ) := by rw [← hkq]; exact hq0
      have hk1 : |k| < 2 ^ 53 := by
        have : (k : ℚ) ≤ ((2147483647 : Int) : ℚ) := by
          rw [← hkq]
          push_cast
          exact hq2
        have h5 : k ≤ 2147483647 := by exact_mod_cast this
        have h6 : 0 < k := by exact_mod_cast hk0
        rw [abs_lt]
        constructor <;> omega
      have hrk : r = (k : ℚ) := by
        have := F64.rnd_intCast k hk1
        rw [← hkq, hr] at this
        rw [← hkq]
        exact F64.fin.inj this
      have hxk : x = ((n * k : Int) : ℚ) := by
        rw [hxq, hkq]
        push_cast
        ring
      have hnk : |n * k| < 2 ^ 53 := by
        have : |((n * k : Int) : ℚ)| ≤ 2147483648 := by rw [← hxk]; exact hxabs
        rw [← Int.cast_abs] at this
        have : ((|n * k| : Int) : ℚ) ≤ ((2147483648 : Int) : ℚ) := by
          push_cast
          push_cast at this
          exact this
        have : |n * k| ≤ 2147483648 := by exact_mod_cast this
        omega
      have hpk : p = ((n * k : Int) : ℚ) := by
        have := F64.rnd_intCast (n * k) hnk
        have e : ((n * k : Int) : ℚ) = (n : ℚ) * r := by
          rw [hrk]
          push_cast
          ring
        rw [e, hp] at this
        rw [← e] at this
        exact F64.fin.inj this
      rw [hpk, hxk]

/-! ## Samples at integral source positions -/

theorem rnd_one : F64.rnd 1 = F64.fin 1 := by
  have := F64.rnd_intCast 1 (by norm_num)
  simpa using this

/-- When the source position is the integer `k`, the fraction is zero and the
loop body stores the input sample `input[k]` unchanged. -/
theorem sampleAt_integral (inp : List Int) (n i k : Int) (step : F64)
    (hp : F64.mul (F64.ofInt i) step = F64.fin (k : ℚ)) (hk0 : 0 ≤ k) (hk1 : k < n)
    (hn2 : n ≤ 2147483647) (hlen : n ≤ inp.length)
    (hrange : ∀ x ∈ inp, -32768 ≤ x ∧ x ≤ 32767) :
    sampleAt inp n step i = inp[k.toNat]? := by
  have hk : F64.ofInt k = F64.fin (k : ℚ) := F64.ofInt_int k (by omega) (by omega)
  have htoInt : toInt (F64.fin (k : ℚ)) = some k := by
    unfold toInt INT_MIN INT_MAX
    exact F64.toIntRange_intCast _ _ _ (by omega) (by omega)
  have hfrac : F64.sub (F64.fin (k : ℚ)) (F64.ofInt k) = F64.fin 0 := by
    rw [hk, F64.sub_fin, sub_self, F64.rnd_zero]
  unfold sampleAt
  simp only [hp, htoInt, hfrac, Option.bind_eq_bind, Option.some_bind]
  by_cases hb : k ≥ n - 1
  · rw [if_pos hb]
    have e : n - 1 = k := by omega
    rw [e]
    unfold readAt
    rw [if_pos hk0]
  · rw [if_neg hb]
    obtain ⟨a, ha, ha2⟩ := readAt_of_lt inp k hk0 (by omega)
    obtain ⟨b, hb1, hb2⟩ := readAt_of_lt inp (k + 1) (by omega) (by omega)
    have hra := hrange a (List.getElem?_mem ha2)
    have hrb := hrange b (List.getElem?_mem hb2)
    rw [ha, hb1]
    simp only [Option.some_bind]
    have h1 : F64.sub (F64.fin 1) (F64.fin 0) = F64.fin 1 := by
      rw [F64.sub_fin, sub_zero, rnd_one]
    have h2 : F64.mul (F64.ofInt a) (F64.fin 1) = F64.fin (a : ℚ) := by
      rw [F64.ofInt_int a (by omega) (by omega), F64.mul_fin, mul_one]
      exact F64.rnd_intCast a (by rw [abs_lt]; constructor <;> omega)
    have h3 : F64.mul (F64.ofInt b) (F64.fin 0) = F64.fin 0 := by
      rw [F64.ofInt_int b (by omega) (by omega), F64.mul_fin, mul_zero, F64.rnd_zero]
    have h4 : F64.add (F64.fin (a : ℚ)) (F64.fin 0) = F64.fin (a : ℚ) := by
      rw [F64.add_fin, add_zero]
      exact F64.rnd_intCast a (by rw [abs_lt]; constructor <;> omega)
    have h5 : F64.max (F64.fin (-32768)) (F64.min (F64.fin 32767) (F64.fin (a : ℚ)))
        = F64.fin (a : ℚ) :=
      F64.clamp_of_mem (a : ℚ) (by exact_mod_cast hra.1) (by exact_mod_cast hra.2)
    have h6 : toInt16 (F64.fin (a : ℚ)) = some a := by
      unfold toInt16
      exact F64.toIntRange_intCast _ _ _ hra.1 hra.2
    rw [h1, h2, h3, h4, h5, h6, ha2]

/-- The sample at output index 0 is the first input sample, whatever the step. -/
theorem sampleAt_zero (inp : List Int) (n : Int) (s : ℚ) (hn1 : 1 ≤ n) (hn2 : n ≤ 2147483647)
    (hlen : n ≤ inp.length) (hrange : ∀ x ∈ inp, -32768 ≤ x ∧ x ≤ 32767) :
    sampleAt inp n (F64.fin s) 0 = inp[0]? := by
  have hp : F64.mul (F64.ofInt 0) (F64.fin s) = F64.fin ((0 : Int) : ℚ) := by
    rw [F64.ofInt_int 0 (by norm_num) (by norm_num), F64.mul_fin]
    simp [F64.rnd_zero]
  exact sampleAt_integral inp n 0 0 (F64.fin s) hp le_rfl (by omega) hn2 hlen hrange

/-- With the step `1.0`, the sample at output index `k` is `input[k]`. -/
theorem sampleAt_step_one (inp : List Int) (n : Int) (k : Nat) (hk : (k : Int) < n)
    (hn2 : n ≤ 2147483647) (hlen : n ≤ inp.length)
    (hrange : ∀ x ∈ inp, -32768 ≤ x ∧ x ≤ 32767) :
    sampleAt inp n (F64.fin 1) k = inp[k]? := by
  have hp : F64.mul (F64.ofInt k) (F64.fin 1) = F64.fin (((k : Nat) : Int) : ℚ) := by
    rw [F64.ofInt_int k (by omega) (by omega), F64.mul_fin, mul_one]
    exact F64.rnd_intCast k (by rw [abs_lt]; constructor <;> omega)
  have := sampleAt_integral inp n k k (F64.fin 1) hp (by omega) hk hn2 hlen hrange
  simpa using this

/-- After `create(R, R, c)` the expected output length of `n` samples is `n`. -/
theorem getOutputSize_identity (self : Resampler) (rate channels n : Int)
    (h1 : 0 < rate) (h1b : rate ≤ 2147483647) (h3 : 0 < channels)
    (hn1 : -2147483648 ≤ n) (hn2 : n ≤ 2147483647) :
    (self.create rate rate channels).2.getOutputSize n = some n := by
  obtain ⟨hinit, hratio⟩ := create_mRatio self rate rate channels h1 h1b h1 h1b h3
  have hr : (rate : ℚ) / (rate : ℚ) = 1 :=
    div_self (by exact_mod_cast (by omega : rate ≠ 0))
  rw [hr, rnd_one] at hratio
  rw [getOutputSize_fin _ n 1 hinit hratio hn1 hn2, mul_one,
    F64.rnd_intCast n (by rw [abs_lt]; constructor <;> omega)]
  have := toInt_ceil_fin (n : ℚ) (by simpa using hn1) (by simpa using hn2)
  simpa using this

/-- Identity ratio, for at least two samples: after `create(R, R, c)`, `resample`
on `N ≥ 2` input samples with room for `N` output samples returns `N`, writes
the input samples at the indices below `N` and leaves the rest of the output
buffer alone. -/
theorem resample_identity (self : Resampler) (rate channels n cap : Int) (inp out : List Int)
    (h1 : 0 < rate) (h1b : rate ≤ 2147483647) (h3 : 0 < channels)
    (hn1 : 2 ≤ n) (hn2 : n ≤ 2147483647) (hlen : n ≤ inp.length)
    (hcap : n ≤ cap) (hout : n ≤ out.length)
    (hrange : ∀ x ∈ inp, -32768 ≤ x ∧ x ≤ 32767) :
    ∃ res : List Int,
      (self.create rate rate channels).2.resample (some inp) n (some out) cap =
        some { self := (self.create rate rate channels).2, ret := n, output := some res } ∧
      res.length = out.length ∧
      (∀ k : Nat, (k : Int) < n → res[k]? = inp[k]?) ∧
      (∀ k : Nat, n ≤ (k : Int) → res[k]? = out[k]?) := by
  have hsize := getOutputSize_identity self rate channels n h1 h1b h3 (by omega) hn2
  have hinit := (create_mRatio self rate rate channels h1 h1b h1 h1b h3).1
  have hmin : min n cap = n := min_eq_left hcap
  obtain ⟨s, res, hs, hres, hl, hk⟩ := resample_defined (self.create rate rate channels).2
    inp out n cap n hinit (by omega) hn2 hlen hsize (by rw [hmin]; exact hn1)
    (by rw [hmin]; exact hout)
  rw [hmin] at hs hres hk
  have hstep : stepOf n n = some (F64.fin 1) := by
    unfold stepOf
    rw [checkedInt_of_mem (n - 1) (by omega) (by omega)]
    simp only [Option.bind_eq_bind, Option.some_bind, Option.pure_def]
    rw [F64.ofInt_int (n - 1) (by omega) (by omega)]
    have hne : ((n - 1 : Int) : ℚ) ≠ 0 := by exact_mod_cast (by omega : n - 1 ≠ 0)
    rw [F64.div_fin _ _ hne, div_self hne, rnd_one]
  have hs1 : s = 1 := by
    rw [hstep] at hs
    exact (F64.fin.inj (Option.some.inj hs)).symm
  subst hs1
  refine ⟨res, hres, hl, ?_, ?_⟩
  · intro k hkn
    rw [hk k, if_pos hkn]
    exact sampleAt_step_one inp n k hkn hn2 hlen hrange
  · intro k hkn
    rw [hk k, if_neg (by omega)]

/-- Whenever the clamped output length is not 1, `resample` returns the clamped
length `min(getOutputSize(inputLength), outputCapacity)`. -/
theorem resample_returns_min (self : Resampler) (inp out : List Int) (n cap size : Int)
    (hinit : self.mInitialized = true) (hn1 : 1 ≤ n) (hn2 : n ≤ 2147483647)
    (hlen : n ≤ inp.length) (hsize : self.getOutputSize n = some size)
    (hne : min size cap ≠ 1) (hmin : -2147483648 < min size cap)
    (hout : min size cap ≤ out.length) :
    ∃ res : List Int, self.resample (some inp) n (some out) cap =
      some { self := self, ret := min size cap, output := some res } := by
  by_cases h : min size cap ≤ 0
  · exact ⟨out, resample_nonpos self inp out n cap size hinit hn1 hn2 hsize h hmin⟩
  · obtain ⟨_, res, _, hres, _, _⟩ := resample_defined self inp out n cap size hinit hn1 hn2
      hlen hsize (by omega) hout
    exact ⟨res, hres⟩

/-- Claim C2, amended: after `create(inputRate, outputRate, channels)` with all
three positive, `getOutputSize(inputLength)` is the ceiling of a product and a
quotient that are both rounded to `double`. It is defined and within one of
`ceil(inputLength * outputRate / inputRate)` whenever that ceiling lies strictly
inside the `int` range, and equal to it when `inputRate` divides `outputRate`;
in particular `getOutputSize(100) = 200` after `create(8000, 16000, 1)` and
`getOutputSize(10) = 7` after `create(3, 2, 1)`. -/
theorem getOutputSize_near_ceil (self : Resampler) (inputRate outputRate channels n : Int)
    (h1 : 0 < inputRate) (h1b : inputRate ≤ 2147483647) (h2 : 0 < outputRate)
    (h2b : outputRate ≤ 2147483647) (h3 : 0 < channels)
    (hn1 : -2147483648 ≤ n) (hn2 : n ≤ 2147483647)
    (hx1 : -2147483648 < ⌈(n : ℚ) * (outputRate : ℚ) / (inputRate : ℚ)⌉)
    (hx2 : ⌈(n : ℚ) * (outputRate : ℚ) / (inputRate : ℚ)⌉ < 2147483647) :
    (∃ size : Int, (self.create inputRate outputRate channels).2.getOutputSize n = some size ∧
      |size - ⌈(n : ℚ) * (outputRate : ℚ) / (inputRate : ℚ)⌉| ≤ 1 ∧
      (inputRate ∣ outputRate → size = ⌈(n : ℚ) * (outputRate : ℚ) / (inputRate : ℚ)⌉)) ∧
    (self.create 8000 16000 1).2.getOutputSize 100 = some 200 ∧
    (self.create 3 2 1).2.getOutputSize 10 = some 7 := by
  refine ⟨getOutputSize_bound self inputRate outputRate channels n h1 h1b h2 h2b h3 hn1 hn2
    hx1 hx2, ?_, ?_⟩
  · rw [create_valid self 8000 16000 1 (by decide) (by decide) (by decide)]
    decide!
  · rw [create_valid self 3 2 1 (by decide) (by decide) (by decide)]
    decide!

theorem getOutputSize_near_ceil_witness :
    ∃ size : Int, (Resampler.new.create 44100 48000 1).2.getOutputSize 147 = some size ∧
      |size - ⌈((147 : Int) : ℚ) * ((48000 : Int) : ℚ) / ((44100 : Int) : ℚ)⌉| ≤ 1 := by
  obtain ⟨⟨size, h1, h2, _⟩, _⟩ :=
    getOutputSize_near_ceil Resampler.new 44100 48000 1 147 (by decide) (by decide)
      (by decide) (by decide) (by decide) (by decide) (by decide) (by decide!) (by decide!)
  exact ⟨size, h1, h2⟩

/-- Claim C4, amended: when the expected output length exceeds a capacity
`C ≥ 2`, `resample` with `outputCapacity = C` returns exactly `C`. The `C` samples
it writes are the interpolation of the whole input over `C` points, with the step
`(inputLength - 1) / (C - 1)`: they are the samples of any call whose clamped
length is `C`, such as an unclamped call of an instance whose expected output
length is `C`. Of the samples of an unclamped call of the same instance only the
one at index 0, the first input sample, is sure to match. -/
theorem resample_clamped_spans_input (self : Resampler) (inp out : List Int)
    (n cap size : Int)
    (hinit : self.mInitialized = true) (hn1 : 1 ≤ n) (hn2 : n ≤ 2147483647)
    (hlen : n ≤ inp.length) (hrange : ∀ x ∈ inp, -32768 ≤ x ∧ x ≤ 32767)
    (hsize : self.getOutputSize n = some size)
    (hcap : 2 ≤ cap) (hlt : cap < size) (hout : cap ≤ out.length) :
    ∃ (s : ℚ) (res : List Int),
      stepOf n cap = some (F64.fin s) ∧
      self.resample (some inp) n (some out) cap =
        some { self := self, ret := cap, output := some res } ∧
      res.length = out.length ∧
      (∀ k : Nat, res[k]? =
        if (k : Int) < cap then sampleAt inp n (F64.fin s) k else out[k]?) ∧
      res[0]? = inp[0]? ∧
      (∀ (other : Resampler) (cap2 : Int), other.mInitialized = true →
        other.getOutputSize n = some cap → cap ≤ cap2 →
        other.resample (some inp) n (some out) cap2 =
          some { self := other, ret := cap, output := some res }) ∧
      (∀ (cap2 : Int) (out2 : List Int), size ≤ cap2 → size ≤ out2.length →
        ∃ res2 : List Int,
          self.resample (some inp) n (some out2) cap2 =
            some { self := self, ret := size, output := some res2 } ∧
          res2[0]? = res[0]?) := by
  have hmin : min size cap = cap := min_eq_right hlt.le
  obtain ⟨s, res, hs, hres, hl, hk⟩ := resample_defined self inp out n cap size hinit hn1 hn2
    hlen hsize (by rw [hmin]; exact hcap) (by rw [hmin]; exact hout)
  rw [hmin] at hs hres hk
  have hzero : ∀ t : ℚ, sampleAt inp n (F64.fin t) ((0 : Nat) : Int) = inp[0]? := by
    intro t
    have := sampleAt_zero inp n t hn1 hn2 hlen hrange
    simpa using this
  have hres0 : res[0]? = inp[0]? := by
    rw [hk 0, if_pos (by omega), hzero s]
  refine ⟨s, res, hs, hres, hl, hk, hres0, ?_, ?_⟩
  · intro other cap2 hoinit hosize hcap2
    have hmin2 : min cap cap2 = cap := min_eq_left hcap2
    obtain ⟨s2, res2, hs2, hres2, hl2, hk2⟩ := resample_defined other inp out n cap2 cap hoinit
      hn1 hn2 hlen hosize (by rw [hmin2]; exact hcap) (by rw [hmin2]; exact hout)
    rw [hmin2] at hs2 hres2 hk2
    have hss : s2 = s := by
      rw [hs] at hs2
      exact (F64.fin.inj (Option.some.inj hs2)).symm
    subst hss
    have : res2 = res := by
      apply List.ext_getElem?
      intro k
      rw [hk k, hk2 k]
    rw [hres2, this]
  · intro cap2 out2 hcap2 hout2
    have hmin3 : min size cap2 = size := min_eq_left hcap2
    obtain ⟨s3, res3, _, hres3, _, hk3⟩ := resample_defined self inp out2 n cap2 size hinit
      hn1 hn2 hlen hsize (by rw [hmin3]; omega) (by rw [hmin3]; exact hout2)
    rw [hmin3] at hres3 hk3
    refine ⟨res3, hres3, ?_⟩
    rw [hk3 0, if_pos (by omega), hzero s3, hres0]

theorem resample_clamped_spans_input_witness :
    ∃ (s : ℚ) (res : List Int),
      stepOf 3 3 = some (F64.fin s) ∧
      (Resampler.new.create 8000 16000 1).2.resample (some [0, 100, 200]) 3
          (some [0, 0, 0, 0, 0, 0]) 3 =
        some { self := (Resampler.new.create 8000 16000 1).2, ret := 3, output := some res } ∧
      res[0]? = ([0, 100, 200] : List Int)[0]? := by
  obtain ⟨s, res, h1, h2, _, _, h5, _⟩ :=
    resample_clamped_spans_input (Resampler.new.create 8000 16000 1).2 [0, 100, 200]
      [0, 0, 0, 0, 0, 0] 3 3 6 (by decide!) (by decide) (by decide) (by decide) (by decide)
      (by decide!) (by decide) (by decide) (by decide)
  exact ⟨s, res, h1, h2, h5⟩

/-! ## Sequences of calls -/

/-- The ratio stored by a successful `create` with `int` rates is a positive
finite number. -/
theorem create_mRatio_pos (self : Resampler) (inputRate outputRate channels : Int)
    (h1 : 0 < inputRate) (h1b : inputRate ≤ 2147483647) (h2 : 0 < outputRate)
    (h2b : outputRate ≤ 2147483647) (h3 : 0 < channels) :
    ∃ r : ℚ, (self.create inputRate outputRate channels).2.mRatio = F64.fin r ∧ 0 < r ∧
      (outputRate : ℚ) / (inputRate : ℚ) * (1 - 1 / 9007199254740992) ≤ r ∧
      r ≤ (outputRate : ℚ) / (inputRate : ℚ) * (1 + 1 / 9007199254740992) := by
  obtain ⟨_, hratio⟩ := create_mRatio self inputRate outputRate channels h1 h1b h2 h2b h3
  have hi0 : (0 : ℚ) < (inputRate : ℚ) := by exact_mod_cast h1
  have hi2 : (inputRate : ℚ) ≤ 2147483647 := by exact_mod_cast h1b
  have ho1 : (1 : ℚ) ≤ (outputRate : ℚ) := by exact_mod_cast (by omega : 1 ≤ outputRate)
  have ho2 : (outputRate : ℚ) ≤ 2147483647 := by exact_mod_cast h2b
  have hi1 : (1 : ℚ) ≤ (inputRate : ℚ) := by exact_mod_cast (by omega : 1 ≤ inputRate)
  have hq1 : 1 / 2147483647 ≤ (outputRate : ℚ) / (inputRate : ℚ) := by
    rw [le_div_iff₀ hi0]
    linarith
  have hq2 : (outputRate : ℚ) / (inputRate : ℚ) ≤ 2147483647 := by
    rw [div_le_iff₀ hi0]
    nlinarith
  obtain ⟨r, hr, hr1, hr2⟩ := rnd_moderate _ (le_trans (by norm_num) hq1)
    (le_trans hq2 (by norm_num))
  refine ⟨r, by rw [hratio, hr], ?_, hr1, hr2⟩
  have : 0 < (outputRate : ℚ) / (inputRate : ℚ) := lt_of_lt_of_le (by norm_num) hq1
  nlinarith

theorem inInt_iff (n : Int) : inInt n = true ↔ -2147483648 ≤ n ∧ n ≤ 2147483647 := by
  unfold inInt INT_MIN INT_MAX
  simp

/-- The invariant of the class: an initialized instance has positive rates, a
positive channel count and a positive ratio. -/
theorem step_invariant (self next : Resampler) (call : Call) (htyped : call.typed = true)
    (hstep : step self call = some next)
    (hinv : self.mInitialized = true → 0 < self.mInputRate ∧ 0 < self.mOutputRate ∧
      0 < self.mChannels ∧ F64.lt (F64.fin 0) self.mRatio = true) :
    next.mInitialized = true → 0 < next.mInputRate ∧ 0 < next.mOutputRate ∧
      0 < next.mChannels ∧ F64.lt (F64.fin 0) next.mRatio = true := by
  cases call with
  | create inputRate outputRate channels =>
    simp only [step, Option.some.injEq] at hstep
    subst hstep
    by_cases hv : inputRate ≤ 0 ∨ outputRate ≤ 0 ∨ channels ≤ 0
    · rw [create_invalid self inputRate outputRate channels hv]
      exact hinv
    · intro _
      simp only [Call.typed, Bool.and_eq_true, inInt_iff] at htyped
      obtain ⟨r, hr, hr0, _⟩ := create_mRatio_pos self inputRate outputRate channels
        (by omega) (by omega) (by omega) (by omega) (by omega)
      rw [hr]
      rw [create_valid self inputRate outputRate channels (by omega) (by omega) (by omega)]
      refine ⟨by show 0 < inputRate; omega, by show 0 < outputRate; omega,
        by show 0 < channels; omega, ?_⟩
      simp [F64.lt, hr0]
  | getOutputSize inputLength =>
    simp only [step, Option.map_eq_some'] at hstep
    obtain ⟨_, _, h⟩ := hstep
    subst h
    exact hinv
  | resample input inputLength output outputCapacity =>
    simp only [step, Option.map_eq_some'] at hstep
    obtain ⟨res, hres, h⟩ := hstep
    have hself : res.self = self := by
      unfold resample at hres
      split at hres
      · split_ifs at hres
        · cases hres
          rfl
        · simp only [Option.bind_eq_bind, Option.bind_eq_some, Option.pure_def,
            Option.some.injEq] at hres
          obtain ⟨_, _, _, _, _, _, h2⟩ := hres
          rw [← h2]
      · cases hres
        rfl
    rw [← h, hself]
    exact hinv
  | destroy =>
    simp only [step, Option.some.injEq] at hstep
    subst hstep
    intro h
    cases h

/-- A defined call of `resample` hands back the instance it was called on. -/
theorem resample_self (self : Resampler) (input output : Option (List Int))
    (inputLength outputCapacity : Int) (res : Result)
    (hres : self.resample input inputLength output outputCapacity = some res) :
    res.self = self := by
  unfold resample at hres
  split at hres
  · split_ifs at hres
    · cases hres
      rfl
    · simp only [Option.bind_eq_bind, Option.bind_eq_some, Option.pure_def,
        Option.some.injEq] at hres
      obtain ⟨_, _, _, _, _, _, h2⟩ := hres
      rw [← h2]
  · cases hres
    rfl

theorem run_invariant (calls : List Call) : ∀ (self final : Resampler),
    (∀ call ∈ calls, call.typed = true) → run self calls = some final →
    (self.mInitialized = true → 0 < self.mInputRate ∧ 0 < self.mOutputRate ∧
      0 < self.mChannels ∧ F64.lt (F64.fin 0) self.mRatio = true) →
    (final.mInitialized = true → 0 < final.mInputRate ∧ 0 < final.mOutputRate ∧
      0 < final.mChannels ∧ F64.lt (F64.fin 0) final.mRatio = true) := by
  induction calls with
  | nil =>
    intro self final _ hrun hinv
    simp only [run, Option.some.injEq] at hrun
    subst hrun
    exact hinv
  | cons call rest ih =>
    intro self final htyped hrun hinv
    simp only [run, Option.bind_eq_some] at hrun
    obtain ⟨next, hnext, hrest⟩ := hrun
    exact ih next final (fun c hc => htyped c (List.mem_cons_of_mem _ hc)) hrest
      (step_invariant self next call (htyped call (List.mem_cons_self _ _)) hnext hinv)

/-- Claim C11: in every state reached from a freshly constructed `Resampler` by
a sequence of `create` (valid or invalid), `resample`, `getOutputSize` and
`destroy` calls with `int` arguments, `initialized = true` implies
`inputRate > 0`, `outputRate > 0`, `channels > 0` and `ratio > 0`. -/
theorem reachable_invariant (calls : List Call) (final : Resampler)
    (htyped : ∀ call ∈ calls, call.typed = true)
    (hrun : run Resampler.new calls = some final)
    (hinit : final.mInitialized = true) :
    0 < final.mInputRate ∧ 0 < final.mOutputRate ∧ 0 < final.mChannels ∧
      F64.lt (F64.fin 0) final.mRatio = true :=
  run_invariant calls Resampler.new final htyped hrun (fun h => by cases h) hinit

theorem reachable_invariant_witness :
    run Resampler.new [Call.create 44100 48000 2, Call.getOutputSize 100, Call.create 0 1 1,
        Call.resample (some [1, 2, 3]) 3 (some [0, 0, 0, 0]) 4, Call.destroy,
        Call.create 8000 16000 1] = some (Resampler.new.create 8000 16000 1).2 ∧
      (Resampler.new.create 8000 16000 1).2.mInitialized = true ∧
      0 < (Resampler.new.create 8000 16000 1).2.mInputRate ∧
      0 < (Resampler.new.create 8000 16000 1).2.mOutputRate ∧
      0 < (Resampler.new.create 8000 16000 1).2.mChannels ∧
      F64.lt (F64.fin 0) (Resampler.new.create 8000 16000 1).2.mRatio = true :=
  ⟨by decide!, by decide!,
    reachable_invariant [Call.create 44100 48000 2, Call.getOutputSize 100, Call.create 0 1 1,
        Call.resample (some [1, 2, 3]) 3 (some [0, 0, 0, 0]) 4, Call.destroy,
        Call.create 8000 16000 1] (Resampler.new.create 8000 16000 1).2
      (by decide) (by decide!) (by decide!)⟩

/-- Claim C16: `destroy` is total and idempotent: for every instance state,
destroying twice gives the state that destroying once gives, and that state is
unconfigured (`getOutputSize` and `resample` return 0 in it). -/
theorem destroy_idempotent (self : Resampler) :
    self.destroy.destroy = self.destroy ∧ self.destroy.mInitialized = false ∧
      (run self [Call.destroy, Call.destroy] = run self [Call.destroy]) ∧
      (∀ n, self.destroy.getOutputSize n = some 0) ∧
      (∀ input n output cap, self.destroy.resample input n output cap =
        some { self := self.destroy, ret := 0, output := output }) := by
  refine ⟨rfl, rfl, rfl, ?_, ?_⟩
  · intro n
    rfl
  · intro input n output cap
    exact resample_guard self.destroy input output n cap (Or.inl rfl)

/-- Claim C12: for every valid configuration, `create` followed by `destroy`
leaves `initialized = false`, `inputRate = 0`, `outputRate = 0` and
`ratio = 1.0`; `getOutputSize` then returns 0 for every length and `resample`
returns 0, writing nothing, for every argument tuple, exactly as on a
never-configured instance. -/
theorem create_destroy_round_trip (self : Resampler) (inputRate outputRate channels : Int)
    (h1 : 0 < inputRate) (h2 : 0 < outputRate) (h3 : 0 < channels) :
    (self.create inputRate outputRate channels).2.mInitialized = true ∧
      (self.create inputRate outputRate channels).2.destroy.mInitialized = false ∧
      (self.create inputRate outputRate channels).2.destroy.mInputRate = 0 ∧
      (self.create inputRate outputRate channels).2.destroy.mOutputRate = 0 ∧
      (self.create inputRate outputRate channels).2.destroy.mRatio = F64.fin 1 ∧
      (∀ n, (self.create inputRate outputRate channels).2.destroy.getOutputSize n = some 0 ∧
        Resampler.new.getOutputSize n = some 0) ∧
      (∀ input n output cap,
        ((self.create inputRate outputRate channels).2.destroy.resample input n output cap).map
            (fun res => (res.ret, res.output)) = some (0, output) ∧
        (Resampler.new.resample input n output cap).map
            (fun res => (res.ret, res.output)) = some (0, output)) := by
  rw [create_valid self inputRate outputRate channels h1 h2 h3]
  refine ⟨rfl, rfl, rfl, rfl, rfl, fun n => ⟨rfl, rfl⟩, ?_⟩
  intro input n output cap
  constructor
  · rw [resample_guard _ input output n cap (Or.inl rfl)]
    rfl
  · rw [resample_guard Resampler.new input output n cap (Or.inl rfl)]
    rfl

theorem create_destroy_round_trip_witness :
    (Resampler.new.create 44100 16000 1).2.mInitialized = true ∧
      (Resampler.new.create 44100 16000 1).2.destroy.mInitialized = false ∧
      (Resampler.new.create 44100 16000 1).2.destroy.mRatio = F64.fin 1 :=
  ⟨(create_destroy_round_trip Resampler.new 44100 16000 1 (by decide) (by decide) (by decide)).1,
    (create_destroy_round_trip Resampler.new 44100 16000 1 (by decide) (by decide)
      (by decide)).2.1,
    (create_destroy_round_trip Resampler.new 44100 16000 1 (by decide) (by decide)
      (by decide)).2.2.2.2.1⟩

/-- Claim C15: `resample` and `getOutputSize` never change the configuration:
after every defined call the fields `inputRate`, `outputRate`, `channels`,
`ratio` and `initialized` of the instance are what they were before it. -/
theorem calls_keep_configuration (self next : Resampler) (call : Call)
    (hcall : (∃ input n output cap, call = Call.resample input n output cap) ∨
      (∃ n, call = Call.getOutputSize n))
    (hstep : step self call = some next) :
    next = self ∧ next.mInputRate = self.mInputRate ∧ next.mOutputRate = self.mOutputRate ∧
      next.mChannels = self.mChannels ∧ next.mRatio = self.mRatio ∧
      next.mInitialized = self.mInitialized := by
  have h : next = self := by
    rcases hcall with ⟨input, n, output, cap, rfl⟩ | ⟨n, rfl⟩
    · simp only [step, Option.map_eq_some'] at hstep
      obtain ⟨res, hres, h⟩ := hstep
      rw [← h]
      exact resample_self self input output n cap res hres
    · simp only [step, Option.map_eq_some'] at hstep
      obtain ⟨_, _, h⟩ := hstep
      exact h.symm
  subst h
  exact ⟨rfl, rfl, rfl, rfl, rfl, rfl⟩

theorem calls_keep_configuration_witness :
    step (Resampler.new.create 8000 16000 1).2
        (Call.resample (some [0, 100, 200]) 3 (some [0, 0, 0, 0, 0, 0]) 6) =
      some (Resampler.new.create 8000 16000 1).2 ∧
    (Resampler.new.create 8000 16000 1).2.mRatio = (Resampler.new.create 8000 16000 1).2.mRatio :=
  ⟨by decide!,
    (calls_keep_configuration (Resampler.new.create 8000 16000 1).2
      (Resampler.new.create 8000 16000 1).2
      (Call.resample (some [0, 100, 200]) 3 (some [0, 0, 0, 0, 0, 0]) 6)
      (Or.inl ⟨_, _, _, _, rfl⟩) (by decide!)).2.2.2.2.1⟩

/-! ## Negative lengths, written samples and read indices -/

theorem roundEven_nonpos {s : ℚ} (hs : s ≤ 0) : F64.roundEven s ≤ 0 := by
  have h1 := Int.floor_le s
  have hf : ⌊s⌋ ≤ 0 := by
    have : ((⌊s⌋ : Int) : ℚ) ≤ ((0 : Int) : ℚ) := by push_cast; linarith
    exact_mod_cast this
  unfold F64.roundEven
  simp only
  have key : ¬ (s - (⌊s⌋ : ℚ) < 1 / 2) → ⌊s⌋ + 1 ≤ 0 := by
    intro h
    have : ((⌊s⌋ : Int) : ℚ) < ((0 : Int) : ℚ) := by push_cast; linarith
    have : ⌊s⌋ < 0 := by exact_mod_cast this
    omega
  split_ifs with a b c
  · exact hf
  · exact key a
  · exact hf
  · exact key a

/-- Rounding does not turn a number that is zero or negative into a positive
one. -/
theorem rnd_nonpos {q r : ℚ} (hq : q ≤ 0) (hr : F64.rnd q = F64.fin r) : r ≤ 0 := by
  unfold F64.rnd at hr
  by_cases h0 : q = 0
  · rw [if_pos h0] at hr
    cases hr
    exact le_rfl
  · rw [if_neg h0] at hr
    simp only at hr
    split_ifs at hr
    cases hr
    have h2 : q / 2 ^ F64.ulpExp q ≤ 0 :=
      div_nonpos_of_nonpos_of_nonneg hq (F64.two_zpow_pos _).le
    have h3 : ((F64.roundEven (q / 2 ^ F64.ulpExp q) : Int) : ℚ) ≤ 0 := by
      exact_mod_cast roundEven_nonpos h2
    exact mul_nonpos_of_nonpos_of_nonneg h3 (F64.two_zpow_pos _).le

theorem toInt_ceil_eq {x : F64} {size : Int} (h : toInt (F64.ceil x) = some size) :
    ∃ p : ℚ, x = F64.fin p ∧ size = ⌈p⌉ := by
  cases x with
  | fin p =>
    refine ⟨p, rfl, ?_⟩
    unfold toInt F64.ceil F64.toIntRange at h
    simp only [F64.trunc_intCast] at h
    split_ifs at h
    cases h
    rfl
  | inf s => cases h
  | nan => cases h

/-- Counterexample to claim C13: after `create(8000, 16000, 1)`,
`getOutputSize(-10)` is `-20`, not 0. -/
theorem getOutputSize_negative_length :
    (Resampler.new.create 8000 16000 1).2.getOutputSize (-10) = some (-20) := by
  decide!

/-- Claim C13, amended: `getOutputSize` returns 0 whenever the instance is
unconfigured, and for `inputLength = 0` in every configuration. For a negative
`inputLength` a configured instance returns the ceiling of the negative `double`
product `inputLength * ratio`: a value that is zero or negative, within one of
`ceil(inputLength * outputRate / inputRate)`, and defined whenever that ceiling
is above the least `int`. -/
theorem getOutputSize_nonpos_length (self : Resampler) (inputRate outputRate channels n : Int)
    (h1 : 0 < inputRate) (h1b : inputRate ≤ 2147483647) (h2 : 0 < outputRate)
    (h2b : outputRate ≤ 2147483647) (h3 : 0 < channels)
    (hn1 : -2147483648 ≤ n) (hn2 : n ≤ 0)
    (hx1 : -2147483648 < ⌈(n : ℚ) * (outputRate : ℚ) / (inputRate : ℚ)⌉) :
    (∀ (other : Resampler) (m : Int), other.mInitialized = false →
      other.getOutputSize m = some 0) ∧
    (self.create inputRate outputRate channels).2.getOutputSize 0 = some 0 ∧
    ∃ size : Int, (self.create inputRate outputRate channels).2.getOutputSize n = some size ∧
      size ≤ 0 ∧ |size - ⌈(n : ℚ) * (outputRate : ℚ) / (inputRate : ℚ)⌉| ≤ 1 := by
  obtain ⟨hinit, _⟩ := create_mRatio self inputRate outputRate channels h1 h1b h2 h2b h3
  obtain ⟨r, hr, hr0, _, _⟩ := create_mRatio_pos self inputRate outputRate channels h1 h1b h2
    h2b h3
  refine ⟨?_, ?_, ?_⟩
  · intro other m hm
    unfold getOutputSize
    rw [hm]
    rfl
  · rw [getOutputSize_fin _ 0 r hinit hr (by norm_num) (by norm_num)]
    simp only [Int.cast_zero, zero_mul, F64.rnd_zero]
    have := toInt_ceil_fin 0 (by simp) (by simp)
    simpa using this
  · have hi0 : (0 : ℚ) < (inputRate : ℚ) := by exact_mod_cast h1
    have ho0 : (0 : ℚ) < (outputRate : ℚ) := by exact_mod_cast h2
    have hnq : (n : ℚ) ≤ 0 := by exact_mod_cast hn2
    have hx0 : (n : ℚ) * (outputRate : ℚ) / (inputRate : ℚ) ≤ 0 :=
      div_nonpos_of_nonpos_of_nonneg (mul_nonpos_of_nonpos_of_nonneg hnq ho0.le) hi0.le
    have hc0 : ⌈(n : ℚ) * (outputRate : ℚ) / (inputRate : ℚ)⌉ ≤ 0 :=
      Int.ceil_le.mpr (by simpa using hx0)
    obtain ⟨size, hsize, hbound, _⟩ := getOutputSize_bound self inputRate outputRate channels n
      h1 h1b h2 h2b h3 hn1 (by omega) hx1 (by omega)
    refine ⟨size, hsize, ?_, hbound⟩
    rw [getOutputSize_fin _ n r hinit hr hn1 (by omega)] at hsize
    obtain ⟨p, hp, hsp⟩ := toInt_ceil_eq hsize
    have hp0 : p ≤ 0 := rnd_nonpos (mul_nonpos_of_nonpos_of_nonneg hnq hr0.le) hp
    rw [hsp]
    exact Int.ceil_le.mpr (by simpa using hp0)

theorem getOutputSize_nonpos_length_witness :
    ∃ size : Int, (Resampler.new.create 8000 16000 1).2.getOutputSize (-10) = some size ∧
      size ≤ 0 := by
  obtain ⟨_, _, size, h1, h2, _⟩ :=
    getOutputSize_nonpos_length Resampler.new 8000 16000 1 (-10) (by decide) (by decide)
      (by decide) (by decide) (by decide) (by decide) (by decide) (by decide!)
  exact ⟨size, h1, h2⟩

/-- Claim C17 at a failing input: after `create(8000, 16000, 1)`, `resample` on
three samples with `outputCapacity = -5` returns `-5`, a negative number, and
writes nothing; the header documents the return value as the number of output
samples produced. -/
theorem resample_negative_capacity :
    (Resampler.new.create 8000 16000 1).2.resample (some [1, 2, 3]) 3 (some [9, 9]) (-5) =
      some { self := (Resampler.new.create 8000 16000 1).2, ret := -5,
             output := some [9, 9] } := by
  decide!

/-- A value stored by a defined iteration of the loop body lies in the 16-bit
range as soon as the input samples do. -/
theorem sampleAt_mem (inp : List Int) (n i v : Int) (step : F64)
    (hrange : ∀ x ∈ inp, -32768 ≤ x ∧ x ≤ 32767)
    (h : sampleAt inp n step i = some v) : -32768 ≤ v ∧ v ≤ 32767 := by
  unfold sampleAt at h
  simp only [Option.bind_eq_bind, Option.bind_eq_some] at h
  obtain ⟨srcIndex, _, h⟩ := h
  split_ifs at h
  · unfold readAt at h
    split_ifs at h
    exact hrange v (List.getElem?_mem h)
  · simp only [Option.bind_eq_some] at h
    obtain ⟨a, _, b, _, h⟩ := h
    exact toIntRange_mem _ _ _ _ h

/-- Whenever the loop completes, every index it visited holds the sample of the
loop body, and the rest of the output buffer is as it was. -/
theorem resampleLoop_some (input : List Int) (n : Int) (step : F64) :
    ∀ (count i : Nat) (out res : List Int),
      resampleLoop input n step count i out = some res →
      res.length = out.length ∧
      (∀ k : Nat, i ≤ k → k < i + count →
        ∃ v, sampleAt input n step k = some v ∧ res[k]? = some v) ∧
      (∀ k : Nat, ¬ (i ≤ k ∧ k < i + count) → res[k]? = out[k]?) := by
  intro count
  induction count with
  | zero =>
    intro i out res h
    simp only [resampleLoop, Option.some.injEq] at h
    subst h
    exact ⟨rfl, fun k h1 h2 => by omega, fun k _ => rfl⟩
  | succ c ih =>
    intro i out res h
    unfold resampleLoop at h
    simp only [Option.bind_eq_bind, Option.bind_eq_some] at h
    obtain ⟨v, hv, out2, hw, hrest⟩ := h
    have hw2 : i < out.length ∧ out2 = out.set i v := by
      unfold writeAt at hw
      split_ifs at hw with hc
      cases hw
      exact ⟨by omega, by simp⟩
    obtain ⟨hi, hout2⟩ := hw2
    subst hout2
    have e : ((i : Int) + 1) = ((i + 1 : Nat) : Int) := by push_cast; rfl
    rw [e] at hrest
    obtain ⟨hl, hin, hout⟩ := ih (i + 1) (out.set i v) res hrest
    refine ⟨by rw [hl, List.length_set], ?_, ?_⟩
    · intro k h1 h2
      by_cases hk : k = i
      · subst hk
        refine ⟨v, hv, ?_⟩
        rw [hout k (by omega)]
        simp [List.getElem?_set, hi]
      · exact hin k (by omega) (by omega)
    · intro k hk
      rw [hout k (by omega)]
      have : i ≠ k := by omega
      simp [List.getElem?_set, this]

/-- What a defined call of `resample` past the guard has done. -/
theorem resample_some (self : Resampler) (inp out : List Int) (n cap : Int) (res : Result)
    (hinit : self.mInitialized = true) (hn : 0 < n)
    (hres : self.resample (some inp) n (some out) cap = some res) :
    ∃ (size : Int) (step : F64) (buf : List Int),
      self.getOutputSize n = some size ∧ stepOf n (min size cap) = some step ∧
      resampleLoop inp n step (min size cap).toNat 0 out = some buf ∧
      res = { self := self, ret := min size cap, output := some buf } := by
  cases hsize : self.getOutputSize n with
  | none =>
    unfold resample at hres
    simp [hinit, hsize] at hres
    exact absurd hres.1 (by omega)
  | some size =>
    rw [resample_of_valid self inp out n cap size hinit hn hsize] at hres
    simp only [Option.bind_eq_some, Option.some.injEq] at hres
    obtain ⟨step, hstep, buf, hbuf, h⟩ := hres
    exact ⟨size, step, buf, rfl, hstep, hbuf, h.symm⟩

/-- Claim C14: for every configured `Resampler` and every valid input (all
samples in `[-32768, 32767]`, `inputLength > 0`), every sample written by
`resample`, that is every output element below the returned length, lies in
`[-32768, 32767]`. The call is defined, so that the samples exist, whenever the
buffers are as large as declared and the clamped length is not 1. -/
theorem resample_samples_in_range (self : Resampler) (inp out : List Int) (n cap : Int)
    (hinit : self.mInitialized = true) (hn : 0 < n)
    (hrange : ∀ x ∈ inp, -32768 ≤ x ∧ x ≤ 32767) :
    (∀ res : Result, self.resample (some inp) n (some out) cap = some res →
      ∃ buf : List Int, res.output = some buf ∧ buf.length = out.length ∧
        ∀ k : Nat, (k : Int) < res.ret →
          ∃ v : Int, buf[k]? = some v ∧ -32768 ≤ v ∧ v ≤ 32767) ∧
    (∀ size : Int, n ≤ 2147483647 → n ≤ inp.length → self.getOutputSize n = some size →
      min size cap ≠ 1 → -2147483648 < min size cap → min size cap ≤ out.length →
      ∃ res : Result, self.resample (some inp) n (some out) cap = some res ∧
        res.ret = min size cap) := by
  constructor
  · intro res hres
    obtain ⟨size, step, buf, _, _, hloop, hr⟩ := resample_some self inp out n cap res hinit hn hres
    obtain ⟨hl, hin, _⟩ := resampleLoop_some inp n step _ 0 out buf hloop
    subst hr
    refine ⟨buf, rfl, hl, ?_⟩
    intro k hk
    obtain ⟨v, hv, hbuf⟩ := hin k (Nat.zero_le k) (by simp only at hk; omega)
    exact ⟨v, hbuf, sampleAt_mem inp n k v step hrange hv⟩
  · intro size hn2 hlen hsize hne hmin hout
    obtain ⟨buf, hbuf⟩ := resample_returns_min self inp out n cap size hinit (by omega) hn2 hlen
      hsize hne hmin hout
    exact ⟨_, hbuf, rfl⟩

theorem resample_samples_in_range_witness :
    ∃ buf : List Int,
      (Resampler.new.create 8000 16000 1).2.resample (some [0, 32767, -32768]) 3
          (some [0, 0, 0, 0, 0, 0]) 6 =
        some { self := (Resampler.new.create 8000 16000 1).2, ret := 6, output := some buf } ∧
      ∀ k : Nat, (k : Int) < 6 → ∃ v : Int, buf[k]? = some v ∧ -32768 ≤ v ∧ v ≤ 32767 := by
  have h := (resample_samples_in_range (Resampler.new.create 8000 16000 1).2 [0, 32767, -32768]
    [0, 0, 0, 0, 0, 0] 3 6 (by decide!) (by decide) (by decide)).1
    { self := (Resampler.new.create 8000 16000 1).2, ret := 6,
      output := some [0, 13106, 26213, 19659, -6554, -32768] } (by decide!)
  obtain ⟨buf, h1, _, h3⟩ := h
  refine ⟨[0, 13106, 26213, 19659, -6554, -32768], by decide!, ?_⟩
  simp only [Option.some.injEq] at h1
  subst h1
  exact h3

/-! ## The interpolation blend -/

/-- The rounded value, when it does not overflow. -/
theorem rnd_of_lt {q : ℚ} (hq : q ≠ 0)
    (h : |(F64.roundEven (q / 2 ^ F64.ulpExp q) : ℚ) * 2 ^ F64.ulpExp q| < 2 ^ (1024 : Int)) :
    F64.rnd q = F64.fin ((F64.roundEven (q / 2 ^ F64.ulpExp q) : ℚ) * 2 ^ F64.ulpExp q) := by
  unfold F64.rnd
  rw [if_neg hq]
  simp only
  rw [if_neg (not_le.mpr h)]

/-- Rounding moves a number by at most half a unit in the last place. -/
theorem abs_rnd_sub_le (q : ℚ) :
    |(F64.roundEven (q / 2 ^ F64.ulpExp q) : ℚ) * 2 ^ F64.ulpExp q - q|
      ≤ 1 / 2 * 2 ^ F64.ulpExp q := by
  have hpe := F64.two_zpow_pos (F64.ulpExp q)
  have h1 := F64.abs_roundEven_sub_le (q / 2 ^ F64.ulpExp q)
  have e1 : (F64.roundEven (q / 2 ^ F64.ulpExp q) : ℚ) * 2 ^ F64.ulpExp q - q
      = ((F64.roundEven (q / 2 ^ F64.ulpExp q) : ℚ) - q / 2 ^ F64.ulpExp q)
        * 2 ^ F64.ulpExp q := by
    rw [sub_mul, div_mul_cancel₀ _ hpe.ne.symm]
  rw [e1, abs_mul, abs_of_pos hpe]
  exact mul_le_mul_of_nonneg_right h1 hpe.le

/-- Rounding a number of absolute value at most `2 ^ 17` yields a finite value
within `2 ^ (-35)` of it. -/
theorem rnd_small (q : ℚ) (hq : |q| ≤ 131072) :
    ∃ r : ℚ, F64.rnd q = F64.fin r ∧ |r - q| ≤ 1 / 34359738368 := by
  by_cases h0 : q = 0
  · exact ⟨0, by rw [h0, F64.rnd_zero], by rw [h0]; norm_num⟩
  have hlog : F64.ilog2 q ≤ 17 := by
    have h1 := F64.zpow_ilog2_le h0
    have h2 : (2 : ℚ) ^ F64.ilog2 q < 2 ^ (18 : Int) := by
      have : (2 : ℚ) ^ (18 : Int) = 262144 := by norm_num
      rw [this]
      linarith
    have := (zpow_lt_zpow_iff_right₀ (by norm_num : (1 : ℚ) < 2)).mp h2
    omega
  have he : F64.ulpExp q ≤ -35 := by
    unfold F64.ulpExp
    rcases max_cases (F64.ilog2 q) (-1022) with ⟨h, _⟩ | ⟨h, _⟩ <;> rw [h] <;> omega
  have hpow : (2 : ℚ) ^ F64.ulpExp q ≤ 1 / 34359738368 := by
    have h1 : (2 : ℚ) ^ F64.ulpExp q ≤ 2 ^ (-35 : Int) :=
      zpow_le_zpow_right₀ (by norm_num) he
    have h2 : (2 : ℚ) ^ (-35 : Int) = 1 / 34359738368 := by
      rw [zpow_neg]
      norm_num
    rw [h2] at h1
    exact h1
  have hpe := F64.two_zpow_pos (F64.ulpExp q)
  have herr := abs_rnd_sub_le q
  have herr2 : |(F64.roundEven (q / 2 ^ F64.ulpExp q) : ℚ) * 2 ^ F64.ulpExp q - q|
      ≤ 1 / 34359738368 := by linarith
  refine ⟨_, rnd_of_lt h0 ?_, herr2⟩
  have h5 := abs_add ((F64.roundEven (q / 2 ^ F64.ulpExp q) : ℚ) * 2 ^ F64.ulpExp q - q) q
  rw [sub_add_cancel] at h5
  have h6 : (131073 : ℚ) ≤ 2 ^ (1024 : Int) := by
    have h : (2 : ℚ) ^ (18 : Int) ≤ 2 ^ (1024 : Int) :=
      zpow_le_zpow_right₀ (by norm_num) (by norm_num)
    have e : (2 : ℚ) ^ (18 : Int) = 262144 := by norm_num
    rw [e] at h
    linarith
  linarith

/-- Rounding does not turn a number that is zero or positive into a negative
one. -/
theorem rnd_nonneg {q r : ℚ} (hq : 0 ≤ q) (hr : F64.rnd q = F64.fin r) : 0 ≤ r := by
  unfold F64.rnd at hr
  by_cases h0 : q = 0
  · rw [if_pos h0] at hr
    cases hr
    exact le_rfl
  · rw [if_neg h0] at hr
    simp only at hr
    split_ifs at hr
    cases hr
    have h2 : 0 ≤ q / 2 ^ F64.ulpExp q := div_nonneg hq (F64.two_zpow_pos _).le
    have h3 : 0 ≤ F64.roundEven (q / 2 ^ F64.ulpExp q) := by
      have hf : 0 ≤ ⌊q / 2 ^ F64.ulpExp q⌋ := Int.floor_nonneg.mpr h2
      unfold F64.roundEven
      simp only
      split_ifs <;> omega
    have h4 : (0 : ℚ) ≤ (F64.roundEven (q / 2 ^ F64.ulpExp q) : ℚ) := by exact_mod_cast h3
    exact mul_nonneg h4 (F64.two_zpow_pos _).le

/-- The clamp of a finite value, as a rational number. -/
theorem clamp_fin (v : ℚ) :
    F64.max (F64.fin (-32768)) (F64.min (F64.fin 32767) (F64.fin v)) =
      F64.fin (max (-32768) (min 32767 v)) := by
  by_cases h1 : v < 32767
  · by_cases h2 : (-32768 : ℚ) < v
    · simp [F64.max, F64.min, F64.lt, h1, h2, h1.le, h2.le]
    · have h3 : v ≤ -32768 := not_lt.mp h2
      simp [F64.max, F64.min, F64.lt, h1, h2, h1.le, h3]
  · have h3 : (32767 : ℚ) ≤ v := not_lt.mp h1
    simp [F64.max, F64.min, F64.lt, h1, h3]
    norm_num

theorem trunc_mono {x y : ℚ} (h : x ≤ y) : F64.trunc x ≤ F64.trunc y := by
  unfold F64.trunc
  split_ifs with hx hy hy
  · exact Int.floor_le_floor h
  · exact absurd (le_trans hx h) hy
  · have h1 : ⌈x⌉ ≤ 0 := Int.ceil_le.mpr (by push_cast; linarith)
    have h2 : 0 ≤ ⌊y⌋ := Int.floor_nonneg.mpr hy
    omega
  · exact Int.ceil_le_ceil h

theorem trunc_add_one_le (x : ℚ) : F64.trunc (x + 1) ≤ F64.trunc x + 1 := by
  unfold F64.trunc
  split_ifs with h1 h2 h2
  · rw [Int.floor_add_one]
  · rw [Int.floor_add_one]
    have := Int.floor_le_ceil x
    omega
  · exact absurd (by linarith) h1
  · rw [Int.ceil_add_one]

/-- Truncation moves a number by less than one. -/
theorem trunc_bounds (x : ℚ) : x - 1 < (F64.trunc x : ℚ) ∧ (F64.trunc x : ℚ) < x + 1 := by
  unfold F64.trunc
  split_ifs with h
  · have h1 := Int.floor_le x
    have h2 := Int.lt_floor_add_one x
    constructor <;> linarith
  · have h1 := Int.le_ceil x
    have h2 := Int.ceil_lt_add_one x
    constructor <;> linarith

/-- The blend computed in `double` arithmetic is within `2 ^ (-19)` of the exact
blend `a * (1 - f) + b * f`. -/
theorem blend_error (a b : Int) (f : ℚ) (ha1 : -32768 ≤ a) (ha2 : a ≤ 32767)
    (hb1 : -32768 ≤ b) (hb2 : b ≤ 32767) (hf0 : 0 ≤ f) (hf1 : f ≤ 1) :
    ∃ v : ℚ, blend a b (F64.fin f) = F64.fin v ∧
      |v - ((a : ℚ) * (1 - f) + (b : ℚ) * f)| ≤ 1 / 524288 := by
  have haq : |(a : ℚ)| ≤ 32768 := by
    rw [abs_le]
    constructor
    · exact_mod_cast ha1
    · have : (a : ℚ) ≤ 32767 := by exact_mod_cast ha2
      linarith
  have hbq : |(b : ℚ)| ≤ 32768 := by
    rw [abs_le]
    constructor
    · exact_mod_cast hb1
    · have : (b : ℚ) ≤ 32767 := by exact_mod_cast hb2
      linarith
  obtain ⟨g, hg, hge⟩ := rnd_small (1 - f) (by rw [abs_le]; constructor <;> linarith)
  have hgabs : |g| ≤ 1 + 1 / 34359738368 := by
    have h1 := abs_add (g - (1 - f)) (1 - f)
    rw [sub_add_cancel] at h1
    have h2 : |1 - f| ≤ 1 := by rw [abs_le]; constructor <;> linarith
    linarith
  have hag : |(a : ℚ) * g| ≤ 131072 := by
    rw [abs_mul]
    calc |(a : ℚ)| * |g| ≤ 32768 * (1 + 1 / 34359738368) :=
          mul_le_mul haq hgabs (abs_nonneg _) (by norm_num)
      _ ≤ 131072 := by norm_num
  obtain ⟨u, hu, hue⟩ := rnd_small ((a : ℚ) * g) hag
  have hbf : |(b : ℚ) * f| ≤ 32768 := by
    rw [abs_mul, abs_of_nonneg hf0]
    calc |(b : ℚ)| * f ≤ 32768 * 1 := mul_le_mul hbq hf1 hf0 (by norm_num)
      _ = 32768 := by norm_num
  obtain ⟨w, hw, hwe⟩ := rnd_small ((b : ℚ) * f) (le_trans hbf (by norm_num))
  have huabs : |u| ≤ 32769 := by
    have h1 := abs_add (u - (a : ℚ) * g) ((a : ℚ) * g)
    rw [sub_add_cancel] at h1
    have h2 : |(a : ℚ) * g| ≤ 32768 * (1 + 1 / 34359738368) := by
      rw [abs_mul]
      exact mul_le_mul haq hgabs (abs_nonneg _) (by norm_num)
    have h3 : (32768 : ℚ) * (1 + 1 / 34359738368) + 1 / 34359738368 ≤ 32769 := by norm_num
    linarith
  have hwabs : |w| ≤ 32769 := by
    have h1 := abs_add (w - (b : ℚ) * f) ((b : ℚ) * f)
    rw [sub_add_cancel] at h1
    have h3 : (32768 : ℚ) + 1 / 34359738368 ≤ 32769 := by norm_num
    linarith
  have huw : |u + w| ≤ 131072 := by
    have := abs_add u w
    linarith
  obtain ⟨v, hv, hve⟩ := rnd_small (u + w) huw
  refine ⟨v, ?_, ?_⟩
  · unfold blend
    rw [F64.ofInt_int a (by omega) (by omega), F64.ofInt_int b (by omega) (by omega),
      F64.sub_fin, hg, F64.mul_fin, hu, F64.mul_fin, hw, F64.add_fin, hv]
  · have hage : |(a : ℚ) * (g - (1 - f))| ≤ 32768 * (1 / 34359738368) := by
      rw [abs_mul]
      exact mul_le_mul haq hge (abs_nonneg _) (by norm_num)
    have e : v - ((a : ℚ) * (1 - f) + (b : ℚ) * f)
        = (v - (u + w)) + (u - (a : ℚ) * g) + (a : ℚ) * (g - (1 - f)) + (w - (b : ℚ) * f) := by
      ring
    rw [e]
    have t1 := abs_add ((v - (u + w)) + (u - (a : ℚ) * g) + (a : ℚ) * (g - (1 - f)))
      (w - (b : ℚ) * f)
    have t2 := abs_add ((v - (u + w)) + (u - (a : ℚ) * g)) ((a : ℚ) * (g - (1 - f)))
    have t3 := abs_add (v - (u + w)) (u - (a : ℚ) * g)
    have t4 : (1 : ℚ) / 34359738368 + 1 / 34359738368 + 32768 * (1 / 34359738368)
        + 1 / 34359738368 ≤ 1 / 524288 := by norm_num
    linarith

/-- The exact blend of two samples lies between them. -/
theorem exact_blend_between (a b : Int) (f : ℚ) (hf0 : 0 ≤ f) (hf1 : f ≤ 1) :
    ((min a b : Int) : ℚ) ≤ (a : ℚ) * (1 - f) + (b : ℚ) * f ∧
      (a : ℚ) * (1 - f) + (b : ℚ) * f ≤ ((max a b : Int) : ℚ) := by
  have h1 : ((min a b : Int) : ℚ) ≤ (a : ℚ) := by exact_mod_cast min_le_left a b
  have h2 : ((min a b : Int) : ℚ) ≤ (b : ℚ) := by exact_mod_cast min_le_right a b
  have h3 : (a : ℚ) ≤ ((max a b : Int) : ℚ) := by exact_mod_cast le_max_left a b
  have h4 : (b : ℚ) ≤ ((max a b : Int) : ℚ) := by exact_mod_cast le_max_right a b
  have hg : 0 ≤ 1 - f := by linarith
  constructor
  · nlinarith
  · nlinarith

/-- A blend within `2 ^ (-19)` of a value between the integers `lo` and `hi` of
the 16-bit range is stored as a sample between `lo - 1` and `hi + 1`. -/
theorem interpolated_of_blend (a b : Int) (frac : F64) (v x : ℚ) (lo hi : Int)
    (hv : blend a b frac = F64.fin v) (hvx : |v - x| ≤ 1 / 524288)
    (hlo : (lo : ℚ) ≤ x) (hhi : x ≤ (hi : ℚ)) (hlo2 : lo ≤ 32767) (hhi2 : -32768 ≤ hi) :
    ∃ s : Int, interpolated a b frac = some s ∧
      s = F64.trunc (max (-32768) (min 32767 v)) ∧
      lo - 1 ≤ s ∧ s ≤ hi + 1 ∧ -32768 ≤ s ∧ s ≤ 32767 := by
  obtain ⟨hv1, hv2⟩ := abs_le.mp hvx
  have hc1 : (-32768 : ℚ) ≤ max (-32768) (min 32767 v) := le_max_left _ _
  have hc2 : max (-32768) (min 32767 v) ≤ (32767 : ℚ) :=
    max_le (by norm_num) (min_le_left _ _)
  have hmem := F64.trunc_mem_of_mem (-32768) 32767 _ (by norm_num) (by norm_num)
    (by push_cast; exact hc1) (by push_cast; exact hc2)
  have hloq : (lo : ℚ) ≤ 32767 := by exact_mod_cast hlo2
  have hhiq : (-32768 : ℚ) ≤ (hi : ℚ) := by exact_mod_cast hhi2
  have hc3 : (lo : ℚ) - 1 / 524288 ≤ max (-32768) (min 32767 v) :=
    le_trans (le_min (by linarith) (by linarith)) (le_max_right _ _)
  have hc4 : max (-32768) (min 32767 v) ≤ (hi : ℚ) + 1 / 524288 :=
    max_le (by linarith) (le_trans (min_le_right _ _) (by linarith))
  obtain ⟨ht1, ht2⟩ := trunc_bounds (max (-32768) (min 32767 v))
  refine ⟨F64.trunc (max (-32768) (min 32767 v)), ?_, rfl, ?_, ?_, hmem.1, hmem.2⟩
  · unfold interpolated
    rw [hv, clamp_fin]
    unfold toInt16 F64.toIntRange
    simp only
    rw [if_pos hmem]
  · have : ((lo - 2 : Int) : ℚ) < ((F64.trunc (max (-32768) (min 32767 v)) : Int) : ℚ) := by
      push_cast
      linarith
    have : lo - 2 < F64.trunc (max (-32768) (min 32767 v)) := by exact_mod_cast this
    omega
  · have : ((F64.trunc (max (-32768) (min 32767 v)) : Int) : ℚ) < ((hi + 2 : Int) : ℚ) := by
      push_cast
      linarith
    have : F64.trunc (max (-32768) (min 32767 v)) < hi + 2 := by exact_mod_cast this
    omega

/-- Counterexample to claim C19: for `a = b = 3` and the fraction `2.0 / 11.0`
the blend computed in `double` is below 3 and the stored sample is 2; for
`a = b = 32767` and the fraction `18.0 / 41.0` the blend is above `32767`, so
that the clamp changes it. -/
theorem interpolated_outside_samples :
    F64.lt (F64.div (F64.ofInt 2) (F64.ofInt 11)) (F64.fin 1) = true ∧
      F64.lt (F64.div (F64.ofInt 2) (F64.ofInt 11)) (F64.fin 0) = false ∧
      F64.lt (blend 3 3 (F64.div (F64.ofInt 2) (F64.ofInt 11))) (F64.fin 3) = true ∧
      interpolated 3 3 (F64.div (F64.ofInt 2) (F64.ofInt 11)) = some 2 ∧
      F64.lt (F64.fin 32767) (blend 32767 32767 (F64.div (F64.ofInt 18) (F64.ofInt 41))) = true ∧
      F64.max (F64.fin (-32768)) (F64.min (F64.fin 32767)
          (blend 32767 32767 (F64.div (F64.ofInt 18) (F64.ofInt 41)))) ≠
        blend 32767 32767 (F64.div (F64.ofInt 18) (F64.ofInt 41)) := by
  decide!

/-- Claim C19, amended: for every pair of samples `a`, `b` in `[-32768, 32767]`
and every fraction `0 ≤ frac < 1`, the exact blend `a * (1 - frac) + b * frac`
lies between `min(a, b)` and `max(a, b)`; the blend computed in `double`
arithmetic is within `2 ^ (-19)` of it, and the sample written after the clamp
and the truncation lies between `min(a, b) - 1` and `max(a, b) + 1` and in
`[-32768, 32767]`. -/
theorem interpolated_near_samples (a b : Int) (f : ℚ) (ha1 : -32768 ≤ a) (ha2 : a ≤ 32767)
    (hb1 : -32768 ≤ b) (hb2 : b ≤ 32767) (hf0 : 0 ≤ f) (hf1 : f < 1) :
    ((min a b : Int) : ℚ) ≤ (a : ℚ) * (1 - f) + (b : ℚ) * f ∧
      (a : ℚ) * (1 - f) + (b : ℚ) * f ≤ ((max a b : Int) : ℚ) ∧
      ∃ v : ℚ, blend a b (F64.fin f) = F64.fin v ∧
        |v - ((a : ℚ) * (1 - f) + (b : ℚ) * f)| ≤ 1 / 524288 ∧
        ∃ s : Int, interpolated a b (F64.fin f) = some s ∧
          min a b - 1 ≤ s ∧ s ≤ max a b + 1 ∧ -32768 ≤ s ∧ s ≤ 32767 := by
  obtain ⟨h1, h2⟩ := exact_blend_between a b f hf0 hf1.le
  obtain ⟨v, hv, hve⟩ := blend_error a b f ha1 ha2 hb1 hb2 hf0 hf1.le
  obtain ⟨s, hs, _, hs1, hs2, hs3, hs4⟩ := interpolated_of_blend a b (F64.fin f) v _
    (min a b) (max a b) hv hve h1 h2 (le_trans (min_le_left a b) ha2)
    (le_trans ha1 (le_max_left a b))
  exact ⟨h1, h2, v, hv, hve, s, hs, hs1, hs2, hs3, hs4⟩

theorem interpolated_near_samples_witness :
    ∃ s : Int, interpolated 3 3 (F64.fin (3275345183542179 / 18014398509481984)) = some s ∧
      min 3 3 - 1 ≤ s ∧ s ≤ max 3 3 + 1 := by
  obtain ⟨_, _, _, _, _, s, h1, h2, h3, _⟩ :=
    interpolated_near_samples 3 3 (3275345183542179 / 18014398509481984) (by decide)
      (by decide) (by decide) (by decide) (by norm_num) (by norm_num)
  exact ⟨s, h1, h2, h3⟩

/-- In its interpolation branch the loop body stores the sample `interpolated`
of the two input samples around the source position. -/
theorem sampleAt_interpolated (inp : List Int) (n i k a b : Int) (step : F64) (p : ℚ)
    (hp : F64.mul (F64.ofInt i) step = F64.fin p) (hk : toInt (F64.fin p) = some k)
    (hb : ¬ k ≥ n - 1) (ha : readAt inp k = some a) (hb2 : readAt inp (k + 1) = some b) :
    sampleAt inp n step i = interpolated a b (F64.sub (F64.fin p) (F64.ofInt k)) := by
  unfold sampleAt interpolated blend
  simp only [hp, hk, Option.bind_eq_bind, Option.some_bind, if_neg hb, ha, hb2]

/-- In its boundary branch the loop body stores the last input sample. -/
theorem sampleAt_boundary (inp : List Int) (n i k : Int) (step : F64) (p : ℚ)
    (hp : F64.mul (F64.ofInt i) step = F64.fin p) (hk : toInt (F64.fin p) = some k)
    (hb : k ≥ n - 1) : sampleAt inp n step i = readAt inp (n - 1) := by
  unfold sampleAt
  simp only [hp, hk, Option.bind_eq_bind, Option.some_bind, if_pos hb]

/-! ## Monotone inputs -/

theorem roundEven_le_ceil (x : ℚ) : F64.roundEven x ≤ ⌈x⌉ := by
  have h1 := Int.floor_le_ceil x
  have h2 : x - (⌊x⌋ : ℚ) ≥ 1 / 2 → ⌊x⌋ + 1 ≤ ⌈x⌉ := by
    intro h
    have : ((⌊x⌋ : Int) : ℚ) < x := by linarith
    have := Int.lt_ceil.mpr this
    omega
  unfold F64.roundEven
  simp only
  split_ifs with a b c
  · exact h1
  · exact h2 (by linarith)
  · exact h1
  · exact h2 (by linarith)

/-- Rounding a number of `(0, 1]` does not exceed 1. -/
theorem rnd_le_one {q r : ℚ} (h0 : 0 < q) (h1 : q ≤ 1) (hr : F64.rnd q = F64.fin r) :
    r ≤ 1 := by
  have hq : q ≠ 0 := h0.ne.symm
  have hlog : F64.ilog2 q ≤ 0 := by
    have h2 := F64.zpow_ilog2_le hq
    rw [abs_of_pos h0] at h2
    have h3 : (2 : ℚ) ^ F64.ilog2 q < 2 ^ (1 : Int) := by
      have : (2 : ℚ) ^ (1 : Int) = 2 := by norm_num
      rw [this]
      linarith
    have := (zpow_lt_zpow_iff_right₀ (by norm_num : (1 : ℚ) < 2)).mp h3
    omega
  have he : F64.ulpExp q ≤ 0 := by
    unfold F64.ulpExp
    rcases max_cases (F64.ilog2 q) (-1022) with ⟨h, _⟩ | ⟨h, _⟩ <;> rw [h] <;> omega
  obtain ⟨j, hj⟩ : ∃ j : Nat, F64.ulpExp q = -(j : Int) := ⟨(-F64.ulpExp q).toNat, by omega⟩
  have hpe := F64.two_zpow_pos (F64.ulpExp q)
  have hpow : (2 : ℚ) ^ F64.ulpExp q * ((2 ^ j : Int) : ℚ) = 1 := by
    rw [hj, zpow_neg, zpow_natCast]
    push_cast
    exact inv_mul_cancel₀ (by positivity)
  have hdiv : q / 2 ^ F64.ulpExp q ≤ ((2 ^ j : Int) : ℚ) := by
    rw [div_le_iff₀ hpe, mul_comm, hpow]
    exact h1
  have hround : F64.roundEven (q / 2 ^ F64.ulpExp q) ≤ 2 ^ j :=
    le_trans (roundEven_le_ceil _) (Int.ceil_le.mpr hdiv)
  unfold F64.rnd at hr
  rw [if_neg hq] at hr
  simp only at hr
  split_ifs at hr
  cases hr
  have : ((F64.roundEven (q / 2 ^ F64.ulpExp q) : Int) : ℚ) ≤ ((2 ^ j : Int) : ℚ) := by
    exact_mod_cast hround
  calc ((F64.roundEven (q / 2 ^ F64.ulpExp q) : Int) : ℚ) * 2 ^ F64.ulpExp q
      ≤ ((2 ^ j : Int) : ℚ) * 2 ^ F64.ulpExp q := mul_le_mul_of_nonneg_right this hpe.le
    _ = 1 := by rw [mul_comm, hpow]

/-- The fraction `srcPos - srcIndex` computed by the loop body is a finite
number of `[0, 1]`, within `2 ^ (-35)` of the exact difference. -/
theorem frac_fin (p : ℚ) (hp0 : 0 ≤ p) (hp1 : p ≤ 2147483647) :
    ∃ f : ℚ, F64.sub (F64.fin p) (F64.ofInt ⌊p⌋) = F64.fin f ∧ 0 ≤ f ∧ f ≤ 1 ∧
      |f - (p - (⌊p⌋ : ℚ))| ≤ 1 / 34359738368 := by
  obtain ⟨_, hf0, hf1⟩ := toInt_fin_of_bounds p hp0 hp1
  have h1 := Int.floor_le p
  have h2 := Int.lt_floor_add_one p
  have ht0 : 0 ≤ p - (⌊p⌋ : ℚ) := by linarith
  have ht1 : p - (⌊p⌋ : ℚ) < 1 := by linarith
  obtain ⟨f, hf, hfe⟩ := rnd_small (p - (⌊p⌋ : ℚ)) (by rw [abs_le]; constructor <;> linarith)
  refine ⟨f, ?_, rnd_nonneg ht0 hf, ?_, hfe⟩
  · rw [F64.ofInt_int ⌊p⌋ (by omega) (by omega), F64.sub_fin, hf]
  · by_cases hz : p - (⌊p⌋ : ℚ) = 0
    · rw [hz, F64.rnd_zero] at hf
      cases hf
      norm_num
    · exact rnd_le_one (lt_of_le_of_ne ht0 (Ne.symm hz)) ht1.le hf

/-- The source position of an output index: finite, and within relative
distance `2 ^ (-53)` of the product `i * step`. -/
theorem srcPos_two_sided (i : Int) (s : ℚ) (hi0 : 0 ≤ i) (hi1 : i ≤ 2147483647)
    (hs0 : s = 0 ∨ 1 / 4294967296 ≤ s) (hs1 : s ≤ 4294967296) :
    ∃ p : ℚ, F64.mul (F64.ofInt i) (F64.fin s) = F64.fin p ∧
      (i : ℚ) * s * (1 - 1 / 9007199254740992) ≤ p ∧
      p ≤ (i : ℚ) * s * (1 + 1 / 9007199254740992) := by
  have hmul : F64.mul (F64.ofInt i) (F64.fin s) = F64.rnd ((i : ℚ) * s) := by
    rw [F64.ofInt_int i (by omega) (by omega)]
    rfl
  by_cases hz : (i : ℚ) * s = 0
  · exact ⟨0, by rw [hmul, hz, F64.rnd_zero], by rw [hz]; simp, by rw [hz]; simp⟩
  · have hi : i ≠ 0 := by
      intro h
      apply hz
      rw [h]
      simp
    have hs : 1 / 4294967296 ≤ s := by
      rcases hs0 with h | h
      · exact absurd (by rw [h]; simp) hz
      · exact h
    have hiq1 : (1 : ℚ) ≤ (i : ℚ) := by exact_mod_cast (by omega : 1 ≤ i)
    have hiq2 : (i : ℚ) ≤ 2147483647 := by exact_mod_cast hi1
    have h1 : 1 / 4294967296 ≤ (i : ℚ) * s := by nlinarith
    have h2 : (i : ℚ) * s ≤ 9223372036854775808 := by nlinarith
    obtain ⟨p, hp, hp1, hp2⟩ := rnd_moderate _ h1 h2
    exact ⟨p, by rw [hmul, hp], hp1, hp2⟩

/-- Consecutive output indices have non-decreasing source positions. -/
theorem srcPos_mono (i : Int) (s p q : ℚ) (hi0 : 0 ≤ i) (hi1 : i + 1 ≤ 2147483647)
    (hs0 : s = 0 ∨ 1 / 4294967296 ≤ s) (hs1 : s ≤ 4294967296)
    (hp : F64.mul (F64.ofInt i) (F64.fin s) = F64.fin p)
    (hq : F64.mul (F64.ofInt (i + 1)) (F64.fin s) = F64.fin q) : p ≤ q := by
  obtain ⟨p2, hp2, _, hpu⟩ := srcPos_two_sided i s hi0 (by omega) hs0 hs1
  obtain ⟨q2, hq2, hql, _⟩ := srcPos_two_sided (i + 1) s (by omega) hi1 hs0 hs1
  rw [hp] at hp2
  rw [hq] at hq2
  have e1 : p = p2 := F64.fin.inj hp2
  have e2 : q = q2 := F64.fin.inj hq2
  subst e1 e2
  have hs : 0 ≤ s := by
    rcases hs0 with h | h
    · rw [h]
    · linarith
  have hiq0 : (0 : ℚ) ≤ (i : ℚ) := by exact_mod_cast hi0
  have hiq : (i : ℚ) ≤ 2147483646 := by exact_mod_cast (by omega : i ≤ 2147483646)
  push_cast at hql
  have key : (i : ℚ) * s * (1 + 1 / 9007199254740992)
      ≤ ((i : ℚ) + 1) * s * (1 - 1 / 9007199254740992) := by
    have : ((i : ℚ) + 1) * s * (1 - 1 / 9007199254740992)
        - (i : ℚ) * s * (1 + 1 / 9007199254740992)
        = s * (1 - (2 * (i : ℚ) + 1) / 9007199254740992) := by ring
    have h2 : 0 ≤ 1 - (2 * (i : ℚ) + 1) / 9007199254740992 := by
      rw [sub_nonneg, div_le_one (by norm_num)]
      linarith
    nlinarith [mul_nonneg hs h2]
  linarith

theorem clampTrunc_step {v w : ℚ} (h : v ≤ w + 1) :
    F64.trunc (max (-32768) (min 32767 v)) ≤ F64.trunc (max (-32768) (min 32767 w)) + 1 := by
  have h1 : max (-32768 : ℚ) (min 32767 v) ≤ max (-32768) (min 32767 w) + 1 := by
    apply max_le
    · have := le_max_left (-32768 : ℚ) (min 32767 w)
      linarith
    · rcases le_total (32767 : ℚ) w with hw | hw
      · rw [min_eq_left hw]
        have := le_max_right (-32768 : ℚ) (32767 : ℚ)
        have := min_le_left (32767 : ℚ) v
        linarith
      · rw [min_eq_right hw]
        have := le_max_right (-32768 : ℚ) w
        have := min_le_right (32767 : ℚ) v
        linarith
  exact le_trans (trunc_mono h1) (trunc_add_one_le _)

theorem clampTrunc_intCast (z : Int) (h1 : -32768 ≤ z) (h2 : z ≤ 32767) :
    F64.trunc (max (-32768) (min 32767 (z : ℚ))) = z := by
  have h3 : (-32768 : ℚ) ≤ (z : ℚ) := by exact_mod_cast h1
  have h4 : (z : ℚ) ≤ 32767 := by exact_mod_cast h2
  rw [min_eq_right h4, max_eq_right h3, F64.trunc_intCast]

/-- The sample stored at an output index, against the exact linear interpolation
of the input at the source position `p`: the sample is the truncated clamp of a
value `v` within `2 ^ (-18)` of the exact interpolation `x`. -/
theorem sampleAt_value (inp : List Int) (n i : Int) (s p : ℚ) (hn1 : 1 ≤ n)
    (hn2 : n ≤ 2147483647) (hlen : n ≤ inp.length)
    (hrange : ∀ x ∈ inp, -32768 ≤ x ∧ x ≤ 32767)
    (hp : F64.mul (F64.ofInt i) (F64.fin s) = F64.fin p) (hp0 : 0 ≤ p) (hp1 : p < n) :
    ∃ (smp : Int) (v x : ℚ),
      sampleAt inp n (F64.fin s) i = some smp ∧
      smp = F64.trunc (max (-32768) (min 32767 v)) ∧
      |v - x| ≤ 1 / 262144 ∧
      ((⌊p⌋ ≥ n - 1 ∧ ∃ z : Int, inp[(n - 1).toNat]? = some z ∧ x = (z : ℚ)) ∨
        (⌊p⌋ < n - 1 ∧ ∃ a b : Int, inp[(⌊p⌋).toNat]? = some a ∧
          inp[(⌊p⌋ + 1).toNat]? = some b ∧
          x = (a : ℚ) * (1 - (p - (⌊p⌋ : ℚ))) + (b : ℚ) * (p - (⌊p⌋ : ℚ)))) := by
  have hpn : p ≤ 2147483647 := by
    have : (n : ℚ) ≤ 2147483647 := by exact_mod_cast hn2
    linarith
  obtain ⟨ht, hf0, hf1⟩ := toInt_fin_of_bounds p hp0 hpn
  have hfn : ⌊p⌋ < n := Int.floor_lt.mpr hp1
  by_cases hb : ⌊p⌋ ≥ n - 1
  · obtain ⟨z, hz, hz2⟩ := readAt_of_lt inp (n - 1) (by omega) (by omega)
    have hzr := hrange z (List.getElem?_mem hz2)
    refine ⟨z, (z : ℚ), (z : ℚ), ?_, (clampTrunc_intCast z hzr.1 hzr.2).symm, by simp,
      Or.inl ⟨hb, z, hz2, rfl⟩⟩
    rw [sampleAt_boundary inp n i ⌊p⌋ (F64.fin s) p hp ht hb, hz]
  · obtain ⟨a, ha, ha2⟩ := readAt_of_lt inp ⌊p⌋ hf0 (by omega)
    obtain ⟨b, hb1, hb2⟩ := readAt_of_lt inp (⌊p⌋ + 1) (by omega) (by omega)
    have hra := hrange a (List.getElem?_mem ha2)
    have hrb := hrange b (List.getElem?_mem hb2)
    obtain ⟨f, hf, hfl, hfu, hfe⟩ := frac_fin p hp0 hpn
    obtain ⟨v, hv, hve⟩ := blend_error a b f hra.1 hra.2 hrb.1 hrb.2 hfl hfu
    have hx : |((a : ℚ) * (1 - f) + (b : ℚ) * f)
        - ((a : ℚ) * (1 - (p - (⌊p⌋ : ℚ))) + (b : ℚ) * (p - (⌊p⌋ : ℚ)))| ≤ 1 / 524288 := by
      have e : ((a : ℚ) * (1 - f) + (b : ℚ) * f)
          - ((a : ℚ) * (1 - (p - (⌊p⌋ : ℚ))) + (b : ℚ) * (p - (⌊p⌋ : ℚ)))
          = ((b : ℚ) - (a : ℚ)) * (f - (p - (⌊p⌋ : ℚ))) := by ring
      rw [e, abs_mul]
      have hba : |(b : ℚ) - (a : ℚ)| ≤ 65535 := by
        have h1 : (-32768 : ℚ) ≤ (a : ℚ) := by exact_mod_cast hra.1
        have h2 : (a : ℚ) ≤ 32767 := by exact_mod_cast hra.2
        have h3 : (-32768 : ℚ) ≤ (b : ℚ) := by exact_mod_cast hrb.1
        have h4 : (b : ℚ) ≤ 32767 := by exact_mod_cast hrb.2
        rw [abs_le]
        constructor <;> linarith
      calc |(b : ℚ) - (a : ℚ)| * |f - (p - (⌊p⌋ : ℚ))|
          ≤ 65535 * (1 / 34359738368) := mul_le_mul hba hfe (abs_nonneg _) (by norm_num)
        _ ≤ 1 / 524288 := by norm_num
    have hvx : |v - ((a : ℚ) * (1 - (p - (⌊p⌋ : ℚ))) + (b : ℚ) * (p - (⌊p⌋ : ℚ)))|
        ≤ 1 / 262144 := by
      have := abs_sub_le v ((a : ℚ) * (1 - f) + (b : ℚ) * f)
        ((a : ℚ) * (1 - (p - (⌊p⌋ : ℚ))) + (b : ℚ) * (p - (⌊p⌋ : ℚ)))
      have e : (1 : ℚ) / 524288 + 1 / 524288 = 1 / 262144 := by norm_num
      linarith
    obtain ⟨h1, h2⟩ := exact_blend_between a b f hfl hfu
    obtain ⟨smp, hsmp, hsmp2, _⟩ := interpolated_of_blend a b (F64.fin f) v _
      (min a b) (max a b) hv hve h1 h2 (le_trans (min_le_left a b) hra.2)
      (le_trans hra.1 (le_max_left a b))
    refine ⟨smp, v, _, ?_, hsmp2, hvx, Or.inr ⟨by omega, a, b, ha2, hb2, rfl⟩⟩
    rw [sampleAt_interpolated inp n i ⌊p⌋ a b (F64.fin s) p hp ht hb ha hb1, hf, hsmp]

/-- A sequence that does not decrease from one element to the next does not
decrease from an element to any later one. -/
theorem pairwise_of_adjacent (inp : List Int) (n : Int)
    (hadj : ∀ (j : Nat) (x y : Int), (j : Int) + 1 < n → inp[j]? = some x →
      inp[j + 1]? = some y → x ≤ y) :
    ∀ (d j : Nat) (x y : Int), ((j + d : Nat) : Int) < n → j + d < inp.length →
      inp[j]? = some x → inp[j + d]? = some y → x ≤ y := by
  intro d
  induction d with
  | zero =>
    intro j x y _ _ hx hy
    rw [Nat.add_zero, hx] at hy
    cases hy
    exact le_rfl
  | succ d ih =>
    intro j x y hn hlen hx hy
    have hmid : j + d < inp.length := by omega
    have hz : inp[j + d]? = some inp[j + d] := List.getElem?_eq_getElem hmid
    have h1 := ih j x inp[j + d] (by push_cast at hn ⊢; omega) hmid hx hz
    have h2 := hadj (j + d) inp[j + d] y (by push_cast at hn ⊢; omega) hz
      (by rw [Nat.add_assoc]; exact hy)
    omega

/-- The exact linear interpolation of a non-decreasing input does not decrease
with the source position. -/
theorem exact_value_mono (inp : List Int) (n : Int) (p q x y : ℚ)
    (hlen : n ≤ inp.length)
    (hadj : ∀ (j : Nat) (x y : Int), (j : Int) + 1 < n → inp[j]? = some x →
      inp[j + 1]? = some y → x ≤ y)
    (hp0 : 0 ≤ p) (hpq : p ≤ q)
    (hx : (⌊p⌋ ≥ n - 1 ∧ ∃ z : Int, inp[(n - 1).toNat]? = some z ∧ x = (z : ℚ)) ∨
      (⌊p⌋ < n - 1 ∧ ∃ a b : Int, inp[(⌊p⌋).toNat]? = some a ∧
        inp[(⌊p⌋ + 1).toNat]? = some b ∧
        x = (a : ℚ) * (1 - (p - (⌊p⌋ : ℚ))) + (b : ℚ) * (p - (⌊p⌋ : ℚ))))
    (hy : (⌊q⌋ ≥ n - 1 ∧ ∃ z : Int, inp[(n - 1).toNat]? = some z ∧ y = (z : ℚ)) ∨
      (⌊q⌋ < n - 1 ∧ ∃ a b : Int, inp[(⌊q⌋).toNat]? = some a ∧
        inp[(⌊q⌋ + 1).toNat]? = some b ∧
        y = (a : ℚ) * (1 - (q - (⌊q⌋ : ℚ))) + (b : ℚ) * (q - (⌊q⌋ : ℚ)))) :
    x ≤ y := by
  have hfl : ⌊p⌋ ≤ ⌊q⌋ := Int.floor_le_floor hpq
  have hf0 : 0 ≤ ⌊p⌋ := Int.floor_nonneg.mpr hp0
  have hp1 := Int.floor_le p
  have hp2 := Int.lt_floor_add_one p
  have hq1 := Int.floor_le q
  have hq2 := Int.lt_floor_add_one q
  have hpair := pairwise_of_adjacent inp n hadj
  rcases hx with ⟨hbp, z, hz, rfl⟩ | ⟨hbp, a, b, ha, hb, rfl⟩
  · rcases hy with ⟨_, z2, hz2, rfl⟩ | ⟨hbq, _⟩
    · rw [hz] at hz2
      cases hz2
      exact le_rfl
    · omega
  · have hab : a ≤ b := by
      have e : (⌊p⌋ + 1).toNat = (⌊p⌋).toNat + 1 := by omega
      rw [e] at hb
      exact hadj (⌊p⌋).toNat a b (by omega) ha hb
    have habq : (a : ℚ) ≤ (b : ℚ) := by exact_mod_cast hab
    have hxb : (a : ℚ) * (1 - (p - (⌊p⌋ : ℚ))) + (b : ℚ) * (p - (⌊p⌋ : ℚ)) ≤ (b : ℚ) := by
      nlinarith
    rcases hy with ⟨hbq, z, hz, rfl⟩ | ⟨hbq, a2, b2, ha2, hb2, rfl⟩
    · have hbz : b ≤ z := by
        have e : (n - 1).toNat = (⌊p⌋ + 1).toNat + ((n - 1).toNat - (⌊p⌋ + 1).toNat) := by
          omega
        rw [e] at hz
        exact hpair _ _ b z (by omega) (by omega) hb hz
      have : (b : ℚ) ≤ (z : ℚ) := by exact_mod_cast hbz
      linarith
    · have hab2 : a2 ≤ b2 := by
        have e : (⌊q⌋ + 1).toNat = (⌊q⌋).toNat + 1 := by omega
        rw [e] at hb2
        exact hadj (⌊q⌋).toNat a2 b2 (by omega) ha2 hb2
      have habq2 : (a2 : ℚ) ≤ (b2 : ℚ) := by exact_mod_cast hab2
      by_cases hkk : ⌊p⌋ = ⌊q⌋
      · rw [← hkk] at ha2 hb2
        rw [ha] at ha2
        rw [hb] at hb2
        cases ha2
        cases hb2
        rw [← hkk]
        nlinarith
      · have hba2 : b ≤ a2 := by
          have e : (⌊q⌋).toNat = (⌊p⌋ + 1).toNat + ((⌊q⌋).toNat - (⌊p⌋ + 1).toNat) := by
            omega
          rw [e] at ha2
          exact hpair _ _ b a2 (by omega) (by omega) hb ha2
        have : (b : ℚ) ≤ (a2 : ℚ) := by exact_mod_cast hba2
        have hya : (a2 : ℚ) ≤ (a2 : ℚ) * (1 - (q - (⌊q⌋ : ℚ))) + (b2 : ℚ) * (q - (⌊q⌋ : ℚ)) := by
          nlinarith
        linarith

/-- Counterexample to claim C20: after `create(8000, 32000, 1)` the constant,
hence non-decreasing, input `{3, 3, 3}` is resampled to twelve samples that
start `3, 2, 3`: the output decreases from index 0 to index 1. -/
theorem resample_constant_not_monotone :
    (Resampler.new.create 8000 32000 1).2.resample (some [3, 3, 3]) 3
        (some [0, 0, 0, 0, 0, 0, 0, 0, 0, 0, 0, 0]) 12 =
      some { self := (Resampler.new.create 8000 32000 1).2, ret := 12,
             output := some [3, 2, 3, 3, 3, 3, 3, 3, 3, 3, 3, 3] } := by
  decide!

/-- Claim C20, amended: for every configured `Resampler` and every
non-decreasing input sequence of 16-bit samples, whenever the clamped output
length is at least 2, `resample` returns that length and the output sequence it
writes is non-decreasing up to one unit: `output[i] ≤ output[i + 1] + 1` for
every `i` with `i + 1` below the returned length. -/
theorem resample_monotone_up_to_one (self : Resampler) (inp out : List Int)
    (n cap size : Int)
    (hinit : self.mInitialized = true) (hn1 : 1 ≤ n) (hn2 : n ≤ 2147483647)
    (hlen : n ≤ inp.length) (hrange : ∀ x ∈ inp, -32768 ≤ x ∧ x ≤ 32767)
    (hadj : ∀ (j : Nat) (x y : Int), (j : Int) + 1 < n → inp[j]? = some x →
      inp[j + 1]? = some y → x ≤ y)
    (hsize : self.getOutputSize n = some size)
    (hm : 2 ≤ min size cap) (hout : min size cap ≤ out.length) :
    ∃ res : List Int,
      self.resample (some inp) n (some out) cap =
        some { self := self, ret := min size cap, output := some res } ∧
      ∀ i : Nat, (i : Int) + 1 < min size cap →
        ∃ x y : Int, res[i]? = some x ∧ res[i + 1]? = some y ∧ x ≤ y + 1 := by
  have hm2 : min size cap ≤ 2147483647 :=
    le_trans (min_le_left _ _) (getOutputSize_mem self n size hsize).2
  obtain ⟨s, res, hs, hres, _, hk⟩ := resample_defined self inp out n cap size hinit hn1 hn2
    hlen hsize hm hout
  obtain ⟨s2, hs2, hs0, hs1⟩ := stepOf_fin n (min size cap) hn1 hn2 hm hm2
  have hss : s2 = s := by
    rw [hs] at hs2
    exact (F64.fin.inj (Option.some.inj hs2)).symm
  subst hss
  have hsle : s2 ≤ 4294967296 := by
    have hmq : (1 : ℚ) ≤ ((min size cap : Int) : ℚ) - 1 := by
      have h2 : ((2 : Int) : ℚ) ≤ ((min size cap : Int) : ℚ) := Int.cast_le.mpr hm
      have h3 : ((2 : Int) : ℚ) = 2 := by norm_num
      rw [h3] at h2
      linarith
    have hnq : (n : ℚ) - 1 ≤ 2147483646 := by
      have : (n : ℚ) ≤ ((2147483647 : Int) : ℚ) := by exact_mod_cast hn2
      push_cast at this
      linarith
    have hs3 : 0 ≤ s2 := by
      rcases hs0 with h | h
      · rw [h]
      · linarith
    nlinarith
  refine ⟨res, hres, ?_⟩
  intro i hi
  obtain ⟨p, hp, hp0, hp1⟩ := srcPos_fin n (min size cap) i s2 hn1 hn2 hm hm2 (by omega)
    (by omega) hs0 hs1
  obtain ⟨q, hq, hq0, hq1⟩ := srcPos_fin n (min size cap) (i + 1) s2 hn1 hn2 hm hm2 (by omega)
    (by omega) hs0 hs1
  have hpq : p ≤ q := srcPos_mono i s2 p q (by omega) (by omega) hs0 hsle hp hq
  obtain ⟨smp1, v1, x1, hsmp1, hv1, he1, hd1⟩ := sampleAt_value inp n i s2 p hn1 hn2 hlen hrange
    hp hp0 hp1
  obtain ⟨smp2, v2, x2, hsmp2, hv2, he2, hd2⟩ := sampleAt_value inp n (i + 1) s2 q hn1 hn2 hlen
    hrange hq hq0 hq1
  have hx : x1 ≤ x2 := exact_value_mono inp n p q x1 x2 hlen hadj hp0 hpq hd1 hd2
  have hv : v1 ≤ v2 + 1 := by
    obtain ⟨_, h1⟩ := abs_le.mp he1
    obtain ⟨h2, _⟩ := abs_le.mp he2
    linarith
  refine ⟨smp1, smp2, ?_, ?_, ?_⟩
  · rw [hk i, if_pos (by omega), hsmp1]
  · rw [hk (i + 1), if_pos (by push_cast; omega)]
    have e : (((i + 1 : Nat) : Int)) = (i : Int) + 1 := by push_cast; rfl
    rw [e, hsmp2]
  · rw [hv1, hv2]
    exact clampTrunc_step hv

theorem resample_monotone_up_to_one_witness :
    ∃ res : List Int,
      (Resampler.new.create 8000 32000 1).2.resample (some [3, 3, 3]) 3
          (some [0, 0, 0, 0, 0, 0, 0, 0, 0, 0, 0, 0]) 12 =
        some { self := (Resampler.new.create 8000 32000 1).2, ret := min 12 12,
               output := some res } ∧
      ∀ i : Nat, (i : Int) + 1 < min 12 12 →
        ∃ x y : Int, res[i]? = some x ∧ res[i + 1]? = some y ∧ x ≤ y + 1 :=
  resample_monotone_up_to_one (Resampler.new.create 8000 32000 1).2 [3, 3, 3]
    [0, 0, 0, 0, 0, 0, 0, 0, 0, 0, 0, 0] 3 12 12 (by decide!) (by decide) (by decide)
    (by decide) (by decide)
    (by
      intro j x y _ hx hy
      have h1 := List.getElem?_mem hx
      have h2 := List.getElem?_mem hy
      simp only [List.mem_cons, List.mem_singleton, List.not_mem_nil, or_false, or_self] at h1 h2
      omega)
    (by decide!) (by decide) (by decide)

/-- The step of an output length of at least two is within relative distance
`2 ^ (-53)` of the exact quotient `(inputLength - 1) / (outputLength - 1)`. -/
theorem stepOf_two_sided (n m : Int) (hn1 : 1 ≤ n) (hn2 : n ≤ 2147483647) (hm1 : 2 ≤ m)
    (hm2 : m ≤ 2147483647) :
    ∃ s : ℚ, stepOf n m = some (F64.fin s) ∧
      ((n : ℚ) - 1) / ((m : ℚ) - 1) * (1 - 1 / 9007199254740992) ≤ s ∧
      s ≤ ((n : ℚ) - 1) / ((m : ℚ) - 1) * (1 + 1 / 9007199254740992) := by
  have hmq1 : (1 : ℚ) ≤ (m : ℚ) - 1 := by
    have : ((2 : Int) : ℚ) ≤ (m : ℚ) := by exact_mod_cast hm1
    push_cast at this
    linarith
  have hmq : (0 : ℚ) < (m : ℚ) - 1 := by linarith
  have hmq2 : (m : ℚ) - 1 ≤ 2147483646 := by
    have : (m : ℚ) ≤ ((2147483647 : Int) : ℚ) := by exact_mod_cast hm2
    push_cast at this
    linarith
  have hnq2 : (n : ℚ) - 1 ≤ 2147483646 := by
    have : (n : ℚ) ≤ ((2147483647 : Int) : ℚ) := by exact_mod_cast hn2
    push_cast at this
    linarith
  have hstep : stepOf n m = some (F64.rnd (((n : ℚ) - 1) / ((m : ℚ) - 1))) := by
    unfold stepOf
    rw [checkedInt_of_mem (n - 1) (by omega) (by omega),
      checkedInt_of_mem (m - 1) (by omega) (by omega)]
    simp only [Option.bind_eq_bind, Option.some_bind, Option.pure_def]
    rw [F64.ofInt_int (n - 1) (by omega) (by omega), F64.ofInt_int (m - 1) (by omega) (by omega)]
    have hne : ((m - 1 : Int) : ℚ) ≠ 0 := by
      push_cast
      exact hmq.ne.symm
    rw [F64.div_fin _ _ hne]
    push_cast
    rfl
  by_cases h1 : n = 1
  · subst h1
    refine ⟨0, ?_, by simp, by simp⟩
    rw [hstep]
    simp [F64.rnd_zero]
  · have hnq : (1 : ℚ) ≤ (n : ℚ) - 1 := by
      have : ((2 : Int) : ℚ) ≤ (n : ℚ) := by exact_mod_cast (by omega : 2 ≤ n)
      push_cast at this
      linarith
    have hq1 : 1 / 4294967296 ≤ ((n : ℚ) - 1) / ((m : ℚ) - 1) := by
      rw [le_div_iff₀ hmq]
      linarith
    have hq2 : ((n : ℚ) - 1) / ((m : ℚ) - 1) ≤ 9223372036854775808 := by
      rw [div_le_iff₀ hmq]
      linarith
    obtain ⟨r, hr, hr1, hr2⟩ := rnd_moderate _ hq1 hq2
    exact ⟨r, by rw [hstep, hr], hr1, hr2⟩

/-- The source position computed in `double` arithmetic is within `2 ^ (-20)` of
the exact position `i * (inputLength - 1) / (outputLength - 1)`. -/
theorem srcPos_near_exact (n m i : Int) (s p : ℚ) (hn1 : 1 ≤ n) (hn2 : n ≤ 2147483647)
    (hm1 : 2 ≤ m) (hm2 : m ≤ 2147483647) (hi0 : 0 ≤ i) (hi1 : i < m)
    (hs : stepOf n m = some (F64.fin s))
    (hp : F64.mul (F64.ofInt i) (F64.fin s) = F64.fin p) :
    0 ≤ (i : ℚ) * ((n : ℚ) - 1) / ((m : ℚ) - 1) ∧
      (i : ℚ) * ((n : ℚ) - 1) / ((m : ℚ) - 1) ≤ (n : ℚ) - 1 ∧
      |p - (i : ℚ) * ((n : ℚ) - 1) / ((m : ℚ) - 1)| ≤ 1 / 1048576 := by
  have hmq1 : (1 : ℚ) ≤ (m : ℚ) - 1 := by
    have : ((2 : Int) : ℚ) ≤ (m : ℚ) := by exact_mod_cast hm1
    push_cast at this
    linarith
  have hmq : (0 : ℚ) < (m : ℚ) - 1 := by linarith
  have hn0 : (0 : ℚ) ≤ (n : ℚ) - 1 := by
    have : ((1 : Int) : ℚ) ≤ (n : ℚ) := by exact_mod_cast hn1
    push_cast at this
    linarith
  have hnq2 : (n : ℚ) - 1 ≤ 2147483646 := by
    have : (n : ℚ) ≤ ((2147483647 : Int) : ℚ) := by exact_mod_cast hn2
    push_cast at this
    linarith
  have hiq0 : (0 : ℚ) ≤ (i : ℚ) := by exact_mod_cast hi0
  have hiq1 : (i : ℚ) ≤ (m : ℚ) - 1 := by
    have : (i : ℚ) ≤ ((m - 1 : Int) : ℚ) := by exact_mod_cast (by omega : i ≤ m - 1)
    push_cast at this
    exact this
  obtain ⟨s2, hs2, hsl, hsu⟩ := stepOf_two_sided n m hn1 hn2 hm1 hm2
  have hss : s2 = s := by
    rw [hs] at hs2
    exact (F64.fin.inj (Option.some.inj hs2)).symm
  subst hss
  have hq0 : 0 ≤ ((n : ℚ) - 1) / ((m : ℚ) - 1) := div_nonneg hn0 hmq.le
  have hqu : ((n : ℚ) - 1) / ((m : ℚ) - 1) ≤ 2147483646 := by
    rw [div_le_iff₀ hmq]
    nlinarith
  have hs0 : 0 ≤ s2 := by nlinarith
  have hs0' : s2 = 0 ∨ 1 / 4294967296 ≤ s2 := by
    obtain ⟨s3, hs3, h3, _⟩ := stepOf_fin n m hn1 hn2 hm1 hm2
    rw [hs] at hs3
    have : s3 = s2 := (F64.fin.inj (Option.some.inj hs3)).symm
    rw [← this]
    exact h3
  have hsle : s2 ≤ 4294967296 := by nlinarith
  obtain ⟨p2, hp2, hpl, hpu⟩ := srcPos_two_sided i s2 hi0 (by omega) hs0' hsle
  have hpp : p2 = p := by
    rw [hp] at hp2
    exact (F64.fin.inj hp2).symm
  subst hpp
  have hx : (i : ℚ) * ((n : ℚ) - 1) / ((m : ℚ) - 1)
      = (i : ℚ) * (((n : ℚ) - 1) / ((m : ℚ) - 1)) := by rw [mul_div_assoc]
  rw [hx]
  set q : ℚ := ((n : ℚ) - 1) / ((m : ℚ) - 1) with hq
  have hx0 : 0 ≤ (i : ℚ) * q := mul_nonneg hiq0 hq0
  have hxn : (i : ℚ) * q ≤ (n : ℚ) - 1 := by
    calc (i : ℚ) * q ≤ ((m : ℚ) - 1) * q := mul_le_mul_of_nonneg_right hiq1 hq0
      _ = (n : ℚ) - 1 := by rw [hq, mul_div_cancel₀ _ hmq.ne.symm]
  have h1 : (i : ℚ) * s2 ≤ (i : ℚ) * q * (1 + 1 / 9007199254740992) := by
    rw [mul_assoc]
    exact mul_le_mul_of_nonneg_left hsu hiq0
  have h2 : (i : ℚ) * q * (1 - 1 / 9007199254740992) ≤ (i : ℚ) * s2 := by
    rw [mul_assoc]
    exact mul_le_mul_of_nonneg_left hsl hiq0
  have h3 : p2 ≤ (i : ℚ) * q * (1 + 1 / 9007199254740992) * (1 + 1 / 9007199254740992) :=
    le_trans hpu (mul_le_mul_of_nonneg_right h1 (by norm_num))
  have h4 : (i : ℚ) * q * (1 - 1 / 9007199254740992) * (1 - 1 / 9007199254740992) ≤ p2 :=
    le_trans (mul_le_mul_of_nonneg_right h2 (by norm_num)) hpl
  refine ⟨hx0, hxn, ?_⟩
  rw [abs_le]
  constructor
  · nlinarith
  · nlinarith

/-- Claim C18: for every configured `Resampler`, `inputLength ≥ 1` and a clamped
output length of at least 2, at every output index `i` the source position is a
finite number within `2 ^ (-20)` of `i * (inputLength - 1) / (outputLength - 1)`,
its conversion to `int` is defined, and the source index, which is within one
of the floor of that exact position, satisfies `0 ≤ srcIndex ≤ inputLength - 1`,
with `srcIndex + 1 ≤ inputLength - 1` outside the boundary branch. Every read of
the loop body on a buffer of exactly `inputLength` samples is defined: no read
goes past the input. -/
theorem resample_read_indices (self : Resampler) (inp : List Int) (n cap size i : Int)
    (hinit : self.mInitialized = true) (hn1 : 1 ≤ n) (hn2 : n ≤ 2147483647)
    (hlen : (inp.length : Int) = n) (hsize : self.getOutputSize n = some size)
    (hm : 2 ≤ min size cap) (hi0 : 0 ≤ i) (hi1 : i < min size cap) :
    ∃ (s p : ℚ),
      stepOf n (min size cap) = some (F64.fin s) ∧
      F64.mul (F64.ofInt i) (F64.fin s) = F64.fin p ∧
      |p - (i : ℚ) * ((n : ℚ) - 1) / (((min size cap : Int) : ℚ) - 1)| ≤ 1 / 1048576 ∧
      |⌊p⌋ - ⌊(i : ℚ) * ((n : ℚ) - 1) / (((min size cap : Int) : ℚ) - 1)⌋| ≤ 1 ∧
      0 ≤ ⌊(i : ℚ) * ((n : ℚ) - 1) / (((min size cap : Int) : ℚ) - 1)⌋ ∧
      ⌊(i : ℚ) * ((n : ℚ) - 1) / (((min size cap : Int) : ℚ) - 1)⌋ ≤ n - 1 ∧
      toInt (F64.fin p) = some ⌊p⌋ ∧
      0 ≤ ⌊p⌋ ∧ ⌊p⌋ ≤ n - 1 ∧
      (¬ (⌊p⌋ ≥ n - 1) → 0 ≤ ⌊p⌋ + 1 ∧ ⌊p⌋ + 1 ≤ n - 1) ∧
      (∃ v : Int, readAt inp (n - 1) = some v) ∧
      (¬ (⌊p⌋ ≥ n - 1) →
        (∃ a : Int, readAt inp ⌊p⌋ = some a) ∧ (∃ b : Int, readAt inp (⌊p⌋ + 1) = some b)) ∧
      ∃ v : Int, sampleAt inp n (F64.fin s) i = some v := by
  have _ := hinit
  have hm2 : min size cap ≤ 2147483647 :=
    le_trans (min_le_left _ _) (getOutputSize_mem self n size hsize).2
  obtain ⟨s, hs, hs0, hs1⟩ := stepOf_fin n (min size cap) hn1 hn2 hm hm2
  obtain ⟨p, hp, hp0, hp1⟩ := srcPos_fin n (min size cap) i s hn1 hn2 hm hm2 hi0 hi1 hs0 hs1
  obtain ⟨hx0, hxn, hpx⟩ := srcPos_near_exact n (min size cap) i s p hn1 hn2 hm hm2 hi0 hi1 hs hp
  have hpn : p ≤ 2147483647 := by
    have : (n : ℚ) ≤ 2147483647 := by exact_mod_cast hn2
    linarith
  obtain ⟨ht, hf0, _⟩ := toInt_fin_of_bounds p hp0 hpn
  have hfn : ⌊p⌋ < n := Int.floor_lt.mpr hp1
  obtain ⟨hpx1, hpx2⟩ := abs_le.mp hpx
  have hfl1 : ⌊p⌋ ≤ ⌊(i : ℚ) * ((n : ℚ) - 1) / (((min size cap : Int) : ℚ) - 1)⌋ + 1 := by
    rw [← Int.floor_add_one]
    exact Int.floor_le_floor (by linarith)
  have hfl2 : ⌊(i : ℚ) * ((n : ℚ) - 1) / (((min size cap : Int) : ℚ) - 1)⌋ - 1 ≤ ⌊p⌋ := by
    rw [← Int.floor_sub_one]
    exact Int.floor_le_floor (by linarith)
  have hfx0 : 0 ≤ ⌊(i : ℚ) * ((n : ℚ) - 1) / (((min size cap : Int) : ℚ) - 1)⌋ :=
    Int.floor_nonneg.mpr hx0
  have hfxn : ⌊(i : ℚ) * ((n : ℚ) - 1) / (((min size cap : Int) : ℚ) - 1)⌋ ≤ n - 1 := by
    have : ⌊(i : ℚ) * ((n : ℚ) - 1) / (((min size cap : Int) : ℚ) - 1)⌋
        ≤ ⌊((n - 1 : Int) : ℚ)⌋ :=
      Int.floor_le_floor (by rw [Int.cast_sub, Int.cast_one]; exact hxn)
    rw [Int.floor_intCast] at this
    exact this
  refine ⟨s, p, hs, hp, hpx, by rw [abs_le]; constructor <;> omega, hfx0, hfxn, ht, hf0,
    by omega, fun h => ⟨by omega, by omega⟩, ?_, ?_, ?_⟩
  · obtain ⟨v, hv, _⟩ := readAt_of_lt inp (n - 1) (by omega) (by omega)
    exact ⟨v, hv⟩
  · intro h
    obtain ⟨a, ha, _⟩ := readAt_of_lt inp ⌊p⌋ hf0 (by omega)
    obtain ⟨b, hb, _⟩ := readAt_of_lt inp (⌊p⌋ + 1) (by omega) (by omega)
    exact ⟨⟨a, ha⟩, ⟨b, hb⟩⟩
  · exact sampleAt_defined inp n (F64.fin s) i p hn1 hn2 (by omega) hp hp0 hp1

theorem resample_read_indices_witness :
    ∃ (s p : ℚ),
      stepOf 31 (min 12 12) = some (F64.fin s) ∧
      F64.mul (F64.ofInt 11) (F64.fin s) = F64.fin p ∧
      toInt (F64.fin p) = some ⌊p⌋ ∧ 0 ≤ ⌊p⌋ ∧ ⌊p⌋ ≤ 31 - 1 := by
  obtain ⟨s, p, h1, h2, _, _, _, _, h3, h4, h5, _⟩ :=
    resample_read_indices (Resampler.new.create 44100 16000 1).2
      [0, 0, 0, 0, 0, 0, 0, 0, 0, 0, 0, 0, 0, 0, 0, 0, 0, 0, 0, 0, 0, 0, 0, 0, 0, 0, 0, 0, 0, 0,
        1000] 31 12 12 11 (by decide!) (by decide) (by decide) (by decide) (by decide!)
      (by decide) (by decide) (by decide)
  exact ⟨s, p, h1, h2, h3, h4, h5⟩

/-- What a defined call of `resample` past the guard writes: the output buffer
keeps its length, every index below the returned length holds a sample of the
loop body, and every other index keeps its previous content. -/
theorem resample_frame (self : Resampler) (inp out : List Int) (n cap : Int) (res : Result)
    (hinit : self.mInitialized = true) (hn : 0 < n)
    (hres : self.resample (some inp) n (some out) cap = some res) :
    ∃ (step : F64) (buf : List Int), res.output = some buf ∧ buf.length = out.length ∧
      (∀ k : Nat, (k : Int) < res.ret →
        ∃ v : Int, sampleAt inp n step k = some v ∧ buf[k]? = some v) ∧
      (∀ k : Nat, res.ret ≤ (k : Int) → buf[k]? = out[k]?) := by
  obtain ⟨size, step, buf, _, _, hloop, hr⟩ := resample_some self inp out n cap res hinit hn hres
  obtain ⟨hl, hin, hout⟩ := resampleLoop_some inp n step _ 0 out buf hloop
  subst hr
  refine ⟨step, buf, rfl, hl, ?_, ?_⟩
  · intro k hk
    exact hin k (Nat.zero_le k) (by simp only at hk; omega)
  · intro k hk
    exact hout k (by simp only at hk; omega)

end Resampler

end TuneUrl
